import Mathlib

/-!
Verification of the Tree Mirror Converter of `src/build.ts` (`PreBuild`):
the recursive YAML→JSON mirroring routine `processYamlToJson` / `processDir`
(lines 92–141) and the top-level `process` entry point (lines 144–159).

Shallow embedding conventions:
* Filesystem paths are lists of segments (`FsPath`); `path.join(dir, name)`
  is `dir ++ [name]`.
* The destination filesystem is a flat model `FS`: the set of existing
  directories plus an association of file paths to their text content.
* The source tree is given as a snapshot value (`SrcEntry` forest); the
  converter only reads it (spec §3: the source tree is read-only).  A missing
  source root is the `none` case of `Option (List SrcEntry)`.
* `js-yaml`'s `yaml.load` is an external dependency; it is a parameter
  (`YamlLoad`) returning either an exception message, `none` for an empty
  document (JavaScript `undefined`), or a parsed `JsonVal`.
* `JSON.stringify(v, null, 2)` and `JSON.parse` are modelled concretely over
  `JsonVal` (null / booleans / integer numbers / strings / arrays / objects
  as ordered field lists), the value domain the project's configuration
  files use (spec §4.1: nested mappings and sequences of scalars).
* Diagnostics (`console.log` / `warn` / `error` lines) are modelled as
  structured `Diag` values carrying level and payload.
-/

/-- A filesystem path, as a list of segments; `path.join(dir, name)` becomes
`dir ++ [name]`. -/
abbrev FsPath := List String

/-- All nonempty initial segments of a path: the directories that
`fs.mkdirSync(p, recursive: true)` guarantees to exist afterwards. -/
def ancestors (p : FsPath) : List FsPath :=
  (List.range p.length).map (fun i => p.take (i + 1))

/-- Lookup in an association list of files, mirroring reading a file at an
exact path. -/
def lookupFile : List (FsPath × String) → FsPath → Option String
  | [], _ => none
  | (q, c) :: rest, p => if q = p then some c else lookupFile rest p

/-- Remove every binding of a path from the file association list. -/
def dropKey : List (FsPath × String) → FsPath → List (FsPath × String)
  | [], _ => []
  | kv :: rest, p => if kv.1 = p then dropKey rest p else kv :: dropKey rest p

/-- `fs.writeFileSync` semantics on the file association list: the path now
maps to exactly this content (unconditional overwrite). -/
def setFile (files : List (FsPath × String)) (p : FsPath) (text : String) :
    List (FsPath × String) :=
  (p, text) :: dropKey files p

/-- Destination filesystem state: which directories exist, and the contents
of the files present. -/
structure FS where
  dirs : List FsPath
  files : List (FsPath × String)

/-- `fs.existsSync` on a directory path. -/
def FS.hasDir (fs : FS) (p : FsPath) : Bool := decide (p ∈ fs.dirs)

/-- `fs.mkdirSync(p, { recursive: true })`: afterwards every ancestor of `p`
(including `p` itself) exists. -/
def FS.mkdirp (fs : FS) (p : FsPath) : FS :=
  { fs with dirs := fs.dirs ++ ancestors p }

/-- `fs.writeFileSync(p, text, 'utf-8')` on the model state. -/
def FS.writeFile (fs : FS) (p : FsPath) (text : String) : FS :=
  { fs with files := setFile fs.files p text }

/-- One console diagnostic line, by level and payload (`[INFO]`, `[WARN]`,
`[ERROR]` messages of `build.ts`). -/
inductive Diag where
  /-- `[INFO] Converted <src> --> <dest>` (line 125). -/
  | infoConverted (src dest : FsPath)
  /-- `[ERROR] Failed to Process <src>: <msg>` (lines 129–131). -/
  | errorFile (src : FsPath) (msg : String)
  /-- `[WARN] Config Directory Not Found: <src>` (line 99). -/
  | warnConfigMissing (src : FsPath)
  /-- `[INFO] YAML to JSON Conversion Completed: <n> File(s) Processed` (lines 139–141). -/
  | infoCompleted (count : Nat)
  /-- `[INFO] Starting Build Process...` (line 146). -/
  | infoStarting
  /-- `[INFO] Build Process Completed Successfully` (line 150). -/
  | infoBuildCompleted
  /-- `[ERROR] Build Process Failed: <msg>` (lines 152–154). -/
  | errorBuildFailed (msg : String)
  /-- `[WARN] Continuing with Build Despite Pre-Build Errors` (line 157). -/
  | warnContinuing
deriving DecidableEq

/-- Mutable state threaded through the walk: destination filesystem, emitted
diagnostics, and `processedCount`. -/
structure St where
  fs : FS
  log : List Diag
  count : Nat

/-- Lines 107–109 / 93–96: `if (!fs.existsSync(dir)) fs.mkdirSync(dir, { recursive: true })`. -/
def mkdirIfMissing (st : St) (p : FsPath) : St :=
  if st.fs.hasDir p then st else { st with fs := st.fs.mkdirp p }

/-- JavaScript `String.prototype.endsWith`: suffix test on the characters. -/
def nameEndsWith (s pat : String) : Bool := pat.data.isSuffixOf s.data

/-- Line 118: `entry.name.endsWith('.yml') || entry.name.endsWith('.yaml')`
(case-sensitive). -/
def isYamlName (n : String) : Bool := nameEndsWith n ".yml" || nameEndsWith n ".yaml"

/-- Drop the last `n` characters of a string. -/
def strDropRight (s : String) (n : Nat) : String :=
  String.mk (s.data.take (s.data.length - n))

/-- Line 122: `entry.name.replace(/\.(yml|yaml)$/, '.json')`.  The regex is
anchored at the end, so the match (when any) is the suffix `.yaml` or `.yml`
— these cannot both be suffixes of one name — and it is replaced by `.json`. -/
def jsonFileName (n : String) : String :=
  if nameEndsWith n ".yaml" then strDropRight n 5 ++ ".json"
  else if nameEndsWith n ".yml" then strDropRight n 4 ++ ".json"
  else n

/-- A generic structured value as returned by `yaml.load` and consumed by
`JSON.stringify`: null, booleans, (integer) numbers, strings, arrays, and
objects as ordered key/value lists. -/
inductive JsonVal where
  | null
  | bool (b : Bool)
  | num (n : Int)
  | str (s : String)
  | arr (elems : List JsonVal)
  | obj (fields : List (String × JsonVal))

/-- Decimal digit character (`0`–`9`) for a digit value. -/
def digitChar : Nat → Char
  | 0 => '0' | 1 => '1' | 2 => '2' | 3 => '3' | 4 => '4'
  | 5 => '5' | 6 => '6' | 7 => '7' | 8 => '8' | _ => '9'

/-- Lowercase hexadecimal digit character for a value below 16. -/
def hexChar : Nat → Char
  | 0 => '0' | 1 => '1' | 2 => '2' | 3 => '3' | 4 => '4'
  | 5 => '5' | 6 => '6' | 7 => '7' | 8 => '8' | 9 => '9'
  | 10 => 'a' | 11 => 'b' | 12 => 'c' | 13 => 'd' | 14 => 'e' | _ => 'f'

/-- Decimal digit expansion of a natural number, most significant first;
fuel-driven so that it evaluates by kernel reduction (`n + 1` fuel always
suffices, since a number has at most `n + 1` digits). -/
def natCharsAux : Nat → Nat → List Char → List Char
  | 0, _, acc => acc
  | fuel + 1, n, acc =>
    if n < 10 then digitChar n :: acc
    else natCharsAux fuel (n / 10) (digitChar (n % 10) :: acc)

/-- Decimal representation of a natural number, as JavaScript `String(n)`. -/
def natChars (n : Nat) : List Char := natCharsAux (n + 1) n []

/-- JavaScript number-to-string conversion for integers: decimal digits,
with a leading `-` for negative values. -/
def intChars (n : Int) : List Char :=
  if n < 0 then '-' :: natChars n.natAbs else natChars n.toNat

/-- Left brace character (written via its code to keep it out of string
literals). -/
def braceL : Char := Char.ofNat 123

/-- Right brace character. -/
def braceR : Char := Char.ofNat 125

/-- ECMA-404 string escaping as performed by `JSON.stringify`: `"` and `\`
are backslash-escaped, the named control characters use their short escapes,
any other control character uses `\u00xx`, and everything else is emitted
literally. -/
def escapeChar (c : Char) : List Char :=
  if c = '"' then ['\\', '"']
  else if c = '\\' then ['\\', '\\']
  else if c = Char.ofNat 8 then ['\\', 'b']
  else if c = Char.ofNat 12 then ['\\', 'f']
  else if c = '\n' then ['\\', 'n']
  else if c = '\r' then ['\\', 'r']
  else if c = '\t' then ['\\', 't']
  else if c.toNat < 32 then
    ['\\', 'u', '0', '0', hexChar (c.toNat / 16), hexChar (c.toNat % 16)]
  else [c]

/-- A JSON string literal: quote, escaped characters, quote. -/
def quoteChars (s : String) : List Char :=
  '"' :: (s.data.flatMap escapeChar ++ ['"'])

/-- Two spaces: the indentation gap of `JSON.stringify(data, null, 2)`. -/
def sp2 : List Char := [' ', ' ']

/-- Characters of the literal `null`. -/
def nullChars : List Char := ['n', 'u', 'l', 'l']

/-- Characters of the literal `true`. -/
def trueChars : List Char := ['t', 'r', 'u', 'e']

/-- Characters of the literal `false`. -/
def falseChars : List Char := ['f', 'a', 'l', 's', 'e']

mutual
/-- `JSON.stringify(v, null, 2)` at current accumulated indentation `ind`:
empty containers print as `[]` / `{}`; non-empty containers put every
member on its own line, indented two spaces deeper, with `: ` after object
keys. -/
def scVal (ind : List Char) : JsonVal → List Char
  | .null => nullChars
  | .bool true => trueChars
  | .bool false => falseChars
  | .num n => intChars n
  | .str s => quoteChars s
  | .arr [] => ['[', ']']
  | .arr (x :: xs) =>
    ('[' :: '\n' :: scItems (ind ++ sp2) (x :: xs)) ++ ('\n' :: ind) ++ [']']
  | .obj [] => [braceL, braceR]
  | .obj (f :: fs) =>
    (braceL :: '\n' :: scFields (ind ++ sp2) (f :: fs)) ++ ('\n' :: ind) ++ [braceR]

/-- Array members of the 2-space pretty printing, each prefixed by the
member indentation and separated by `,\n`. -/
def scItems (ind : List Char) : List JsonVal → List Char
  | [] => []
  | [x] => ind ++ scVal ind x
  | x :: y :: ys =>
    (ind ++ scVal ind x) ++ (',' :: '\n' :: scItems ind (y :: ys))

/-- Object members of the 2-space pretty printing: indented quoted key,
`: `, value, separated by `,\n`. -/
def scFields (ind : List Char) : List (String × JsonVal) → List Char
  | [] => []
  | [(k, v)] => ind ++ (quoteChars k ++ (':' :: ' ' :: scVal ind v))
  | (k, v) :: g :: gs =>
    (ind ++ (quoteChars k ++ (':' :: ' ' :: scVal ind v))) ++
      (',' :: '\n' :: scFields ind (g :: gs))
end

/-- `JSON.stringify(v, null, 2)` as a string (top level starts with no
indentation). -/
def jsonStringify (v : JsonVal) : String := String.mk (scVal [] v)

/-- `JSON.stringify` on a possibly-`undefined` argument: stringifying
`undefined` yields `undefined` (no text), not a string. -/
def jsonStringifyOpt : Option JsonVal → Option String
  | none => none
  | some v => some (jsonStringify v)

/-- Behaviour of `yaml.load` on a file's text: an exception message for
malformed YAML, `.ok none` for a document with no value (JavaScript
`undefined`, e.g. an empty file), or `.ok (some v)` for a parsed value.
The converter is verified for every such parser behaviour. -/
abbrev YamlLoad := String → Except String (Option JsonVal)

/-- The `TypeError` message `fs.writeFileSync` raises when handed
`undefined` instead of text. -/
def writeUndefinedMsg : String :=
  "The data argument must be of type string or an instance of Buffer, TypedArray, or DataView"

/-- Lines 119–124 at single-file granularity: read succeeds (the snapshot
holds the content), `yaml.load` may throw, `JSON.stringify` of `undefined`
makes the subsequent `writeFileSync` throw; otherwise the JSON text to be
written is produced. -/
def convertFile (load : YamlLoad) (content : String) : Except String String :=
  match load content with
  | .error e => .error e
  | .ok data? =>
    match jsonStringifyOpt data? with
    | none => .error writeUndefinedMsg
    | some text => .ok text

/-- One entry of the source tree as reported by
`fs.readdirSync(dir, { withFileTypes: true })`: a regular file with its
content, a directory with its entries in reported order, or an entry that is
neither (`isDirectory()` and `isFile()` both false). -/
inductive SrcEntry where
  | file (name content : String)
  | dir (name : String) (sub : List SrcEntry)
  | other (name : String)

mutual
/-- Body of the `entries.forEach` callback (lines 112–135): directories
recurse (after ensuring the mirrored directory exists, lines 107–109 of the
recursive call), `.yml`/`.yaml` files are converted inside the per-file
`try`/`catch`, everything else is skipped silently. -/
def processEntry (load : YamlLoad) (e : SrcEntry) (srcDir destDir : FsPath)
    (st : St) : St :=
  match e with
  | .dir name sub =>
    processList load sub (srcDir ++ [name]) (destDir ++ [name])
      (mkdirIfMissing st (destDir ++ [name]))
  | .file name content =>
    if isYamlName name then
      match convertFile load content with
      | .ok text =>
        { fs := st.fs.writeFile (destDir ++ [jsonFileName name]) text,
          log := st.log ++
            [Diag.infoConverted (srcDir ++ [name]) (destDir ++ [jsonFileName name])],
          count := st.count + 1 }
      | .error msg =>
        { st with log := st.log ++ [Diag.errorFile (srcDir ++ [name]) msg] }
    else st
  | .other _ => st

/-- Sequential left-to-right processing of a directory's entries. -/
def processList (load : YamlLoad) (l : List SrcEntry) (srcDir destDir : FsPath)
    (st : St) : St :=
  match l with
  | [] => st
  | e :: rest => processList load rest srcDir destDir (processEntry load e srcDir destDir st)
end

/-- `processYamlToJson` (lines 92–141), parameterised by the two roots
(`CONFIG_DIR` / `DATA_DIR`) as the spec's `convert(sourceRoot, destRoot)`:
first ensure the destination root exists (lines 93–96), then return with a
warning if the source root is missing (lines 98–101), otherwise run
`processDir(sourceRoot, destRoot)` — whose own first step re-checks the
destination root — and report the processed count. -/
def processYamlToJson (load : YamlLoad) (srcRoot destRoot : FsPath)
    (src : Option (List SrcEntry)) (fs0 : FS) : St :=
  let st1 := mkdirIfMissing ⟨fs0, [], 0⟩ destRoot
  match src with
  | none => { st1 with log := st1.log ++ [Diag.warnConfigMissing srcRoot] }
  | some entries =>
    let st3 := processList load entries srcRoot destRoot (mkdirIfMissing st1 destRoot)
    { st3 with log := st3.log ++ [Diag.infoCompleted st3.count] }

/-- Semantics of the `try`/`catch` in `process` (lines 144–159): if the body
raised, append the error diagnostic and the continuation warning and return
normally. -/
def catchLogged (body : List Diag × Except String Unit) :
    List Diag × Except String Unit :=
  match body.2 with
  | .ok _ => body
  | .error e => (body.1 ++ [Diag.errorBuildFailed e, Diag.warnContinuing], .ok ())

/-- `PreBuild.process` (lines 144–159) over an arbitrary outcome of the
inner `this.processYamlToJson()` call: `innerLog` is whatever the inner call
printed before returning or raising, `innerResult` its termination (normal,
or any raised error — a failed destination-root `mkdirSync`, a failed
`readdirSync`, …).  The completion message only prints when the body did not
raise; the `catch` turns any raise into diagnostics. -/
def processBuild (innerLog : List Diag) (innerResult : Except String Unit) :
    List Diag × Except String Unit :=
  catchLogged
    (Diag.infoStarting ::
        (innerLog ++
          match innerResult with
          | .ok _ => [Diag.infoBuildCompleted]
          | .error _ => []),
      innerResult)

/-! ## Trace-level descriptions of the walk

Pure recursive functions computing, from the source tree alone, the writes
performed, the per-file diagnostics emitted, the directories visited, and
the file entries present.  The decomposition lemmas below prove that the
stateful walk equals the fold of these traces over the initial state. -/

mutual
/-- Destination writes (path and JSON text) produced by an entry, in
traversal order. -/
def writesOfE (load : YamlLoad) : SrcEntry → FsPath → List (FsPath × String)
  | .dir name sub, d => writesOfL load sub (d ++ [name])
  | .file name content, d =>
    if isYamlName name then
      match convertFile load content with
      | .ok text => [(d ++ [jsonFileName name], text)]
      | .error _ => []
    else []
  | .other _, _ => []

/-- Destination writes produced by a list of entries, in traversal order. -/
def writesOfL (load : YamlLoad) : List SrcEntry → FsPath → List (FsPath × String)
  | [], _ => []
  | e :: rest, d => writesOfE load e d ++ writesOfL load rest d
end

mutual
/-- Per-file diagnostics emitted by an entry, in traversal order. -/
def logOfE (load : YamlLoad) : SrcEntry → FsPath → FsPath → List Diag
  | .dir name sub, s, d => logOfL load sub (s ++ [name]) (d ++ [name])
  | .file name content, s, d =>
    if isYamlName name then
      match convertFile load content with
      | .ok _ => [Diag.infoConverted (s ++ [name]) (d ++ [jsonFileName name])]
      | .error msg => [Diag.errorFile (s ++ [name]) msg]
    else []
  | .other _, _, _ => []

/-- Per-file diagnostics emitted by a list of entries, in traversal order. -/
def logOfL (load : YamlLoad) : List SrcEntry → FsPath → FsPath → List Diag
  | [], _, _ => []
  | e :: rest, s, d => logOfE load e s d ++ logOfL load rest s d
end

mutual
/-- Mirrored destination directories of the subdirectories the walk descends
into (every directory entry, whatever it contains), in traversal order. -/
def visitedE : SrcEntry → FsPath → List FsPath
  | .dir name sub, d => (d ++ [name]) :: visitedL sub (d ++ [name])
  | .file _ _, _ => []
  | .other _, _ => []

/-- Mirrored destination directories below a list of entries. -/
def visitedL : List SrcEntry → FsPath → List FsPath
  | [], _ => []
  | e :: rest, d => visitedE e d ++ visitedL rest d
end

mutual
/-- All regular-file entries of the tree: (directory path, name, content),
with the directory path accumulated on top of the given prefix. -/
def filesOfE : SrcEntry → FsPath → List (FsPath × String × String)
  | .dir name sub, p => filesOfL sub (p ++ [name])
  | .file name content, p => [(p, name, content)]
  | .other _, _ => []

/-- All regular-file entries below a list of entries. -/
def filesOfL : List SrcEntry → FsPath → List (FsPath × String × String)
  | [], _ => []
  | e :: rest, p => filesOfE e p ++ filesOfL rest p
end

/-- Whether a single-file conversion succeeds. -/
def convOk (load : YamlLoad) (content : String) : Bool :=
  match convertFile load content with
  | .ok _ => true
  | .error _ => false

/-- The file entries that are attempted and convert successfully: the
claims' "N valid YAML files". -/
def successFiles (load : YamlLoad) (l : List SrcEntry) (s : FsPath) :
    List (FsPath × String × String) :=
  (filesOfL l s).filter (fun f => isYamlName f.2.1 && convOk load f.2.2)

/-- One guarded `mkdirSync` step on the directory set, as `mkdirIfMissing`
performs on the state. -/
def guardedAdd (acc : List FsPath) (p : FsPath) : List FsPath :=
  if p ∈ acc then acc else acc ++ ancestors p

/-- Folding the guarded directory creations of the walk. -/
def dirsFold (ps : List FsPath) (acc : List FsPath) : List FsPath :=
  ps.foldl guardedAdd acc

/-- Folding a write trace over the file association list. -/
def applyWrites (ws : List (FsPath × String)) (files : List (FsPath × String)) :
    List (FsPath × String) :=
  ws.foldl (fun f w => setFile f w.1 w.2) files

/-- Last value written to a path by a trace, if any. -/
def lastVal : List (FsPath × String) → FsPath → Option String
  | [], _ => none
  | (q, t) :: rest, p =>
    match lastVal rest p with
    | some t' => some t'
    | none => if q = p then some t else none

/-- The source path a per-file diagnostic names, if it is a per-file
diagnostic. -/
def diagSrc : Diag → Option FsPath
  | .infoConverted src _ => some src
  | .errorFile src _ => some src
  | _ => none

/-! ## `JSON.parse`, for the round-trip property

A recursive-descent parser over the characters, with the whitespace
skipping of the JSON grammar.  Numbers are parsed in the integer form the
converter emits (the modelled number domain).  A fuel argument makes the
recursion structural; the fuel `length + 1` used by `jsonParse` is proved
sufficient for every printed value. -/

/-- JSON insignificant whitespace. -/
def isWsChar (c : Char) : Bool := c = ' ' || c = '\n' || c = '\t' || c = '\r'

/-- Skip insignificant whitespace. -/
def skipWs (cs : List Char) : List Char := cs.dropWhile isWsChar

/-- Decimal digit test. -/
def isDigitChar (c : Char) : Bool := 48 ≤ c.toNat && c.toNat ≤ 57

/-- Value of a decimal digit character. -/
def digitVal (c : Char) : Nat := c.toNat - 48

/-- Numeric value of a digit sequence. -/
def foldDigits (ds : List Char) : Nat := ds.foldl (fun a c => 10 * a + digitVal c) 0

/-- The single-character string escapes of JSON. -/
def unescapeChar (c : Char) : Option Char :=
  if c = '"' then some '"'
  else if c = '\\' then some '\\'
  else if c = '/' then some '/'
  else if c = 'b' then some (Char.ofNat 8)
  else if c = 'f' then some (Char.ofNat 12)
  else if c = 'n' then some '\n'
  else if c = 'r' then some '\r'
  else if c = 't' then some '\t'
  else none

/-- Value of a hexadecimal digit character (either case), if any. -/
def hexVal (c : Char) : Option Nat :=
  if 48 ≤ c.toNat && c.toNat ≤ 57 then some (c.toNat - 48)
  else if 97 ≤ c.toNat && c.toNat ≤ 102 then some (c.toNat - 87)
  else if 65 ≤ c.toNat && c.toNat ≤ 70 then some (c.toNat - 55)
  else none

mutual
/-- Parse the body of a JSON string literal (after the opening quote) up to
and including the closing quote, returning the decoded characters and the
remainder.  Raw control characters are rejected, escapes are decoded. -/
def parseStrAux : List Char → Option (List Char × List Char)
  | [] => none
  | c :: rest =>
    if c = '"' then some ([], rest)
    else if c = '\\' then parseEsc rest
    else if c.toNat < 32 then none
    else
      match parseStrAux rest with
      | some (cs, r) => some (c :: cs, r)
      | none => none

/-- Parse what follows a backslash in a JSON string literal. -/
def parseEsc : List Char → Option (List Char × List Char)
  | [] => none
  | e :: rest =>
    if e = 'u' then parseUEsc rest
    else
      match unescapeChar e, parseStrAux rest with
      | some c2, some (cs, r) => some (c2 :: cs, r)
      | _, _ => none

/-- Parse the four hex digits of a `\u` escape in a JSON string literal. -/
def parseUEsc : List Char → Option (List Char × List Char)
  | h1 :: h2 :: h3 :: h4 :: rest =>
    match hexVal h1, hexVal h2, hexVal h3, hexVal h4, parseStrAux rest with
    | some a, some b, some c2, some d, some (cs, r) =>
      some (Char.ofNat (((a * 16 + b) * 16 + c2) * 16 + d) :: cs, r)
    | _, _, _, _, _ => none
  | _ => none
end

/-- Parse a nonempty run of decimal digits as a natural number. -/
def parseNatTok (cs : List Char) : Option (Nat × List Char) :=
  match cs.takeWhile isDigitChar with
  | [] => none
  | ds => some (foldDigits ds, cs.dropWhile isDigitChar)

mutual
/-- Parse one JSON value (input already past leading whitespace). -/
def parseVal : Nat → List Char → Option (JsonVal × List Char)
  | 0, _ => none
  | fuel + 1, cs =>
    match cs with
    | [] => none
    | c :: rest =>
      if c = 'n' then
        match rest with
        | 'u' :: 'l' :: 'l' :: r => some (.null, r)
        | _ => none
      else if c = 't' then
        match rest with
        | 'r' :: 'u' :: 'e' :: r => some (.bool true, r)
        | _ => none
      else if c = 'f' then
        match rest with
        | 'a' :: 'l' :: 's' :: 'e' :: r => some (.bool false, r)
        | _ => none
      else if c = '"' then
        match parseStrAux rest with
        | some (cs2, r) => some (.str (String.mk cs2), r)
        | none => none
      else if c = '-' then
        match parseNatTok rest with
        | some (n, r) => some (.num (-(n : Int)), r)
        | none => none
      else if isDigitChar c then
        match parseNatTok (c :: rest) with
        | some (n, r) => some (.num (n : Int), r)
        | none => none
      else if c = '[' then
        match skipWs rest with
        | [] => none
        | c2 :: r =>
          if c2 = ']' then some (.arr [], r)
          else
            match parseElems fuel (c2 :: r) with
            | some (vs, r2) => some (.arr vs, r2)
            | none => none
      else if c = braceL then
        match skipWs rest with
        | [] => none
        | c2 :: r =>
          if c2 = braceR then some (.obj [], r)
          else
            match parseFields fuel (c2 :: r) with
            | some (fs, r2) => some (.obj fs, r2)
            | none => none
      else none

/-- Parse the members of a non-empty JSON array, consuming the closing
bracket. -/
def parseElems : Nat → List Char → Option (List JsonVal × List Char)
  | 0, _ => none
  | fuel + 1, cs =>
    match parseVal fuel cs with
    | none => none
    | some (v, r) =>
      match skipWs r with
      | [] => none
      | c :: r2 =>
        if c = ',' then
          match parseElems fuel (skipWs r2) with
          | some (vs, r3) => some (v :: vs, r3)
          | none => none
        else if c = ']' then some ([v], r2)
        else none

/-- Parse the members of a non-empty JSON object, consuming the closing
brace. -/
def parseFields : Nat → List Char → Option (List (String × JsonVal) × List Char)
  | 0, _ => none
  | fuel + 1, cs =>
    match cs with
    | [] => none
    | c :: rest =>
      if c = '"' then
        match parseStrAux rest with
        | none => none
        | some (kcs, r1) =>
          match skipWs r1 with
          | [] => none
          | c2 :: r2 =>
            if c2 = ':' then
              match parseVal fuel (skipWs r2) with
              | none => none
              | some (v, r3) =>
                match skipWs r3 with
                | [] => none
                | c3 :: r4 =>
                  if c3 = ',' then
                    match parseFields fuel (skipWs r4) with
                    | some (fs, r5) => some ((String.mk kcs, v) :: fs, r5)
                    | none => none
                  else if c3 = braceR then some ([(String.mk kcs, v)], r4)
                  else none
            else none
      else none
end

/-- `JSON.parse`: skip leading whitespace, parse one value, require only
whitespace after it. -/
def jsonParse (s : String) : Option JsonVal :=
  match parseVal ((skipWs s.data).length + 1) (skipWs s.data) with
  | some (v, rest) => if skipWs rest = [] then some v else none
  | none => none

mutual
/-- Fuel needed by `parseVal` for a value (proved bounded by the printed
length). -/
def szV : JsonVal → Nat
  | .null => 1
  | .bool _ => 1
  | .num _ => 1
  | .str _ => 1
  | .arr xs => szL xs + 1
  | .obj fs => szF fs + 1

/-- Fuel needed by `parseElems` for an array's members. -/
def szL : List JsonVal → Nat
  | [] => 1
  | x :: xs => max (szV x) (szL xs) + 1

/-- Fuel needed by `parseFields` for an object's members. -/
def szF : List (String × JsonVal) → Nat
  | [] => 1
  | (_, v) :: fs => max (szV v) (szF fs) + 1
end

mutual
/-- The modelled faithful domain for the JavaScript serialization: every
number is an integer of magnitude at most `2 ^ 53` (printed exactly, in
plain decimal, by JavaScript), and every object has pairwise distinct keys
(as `yaml.load` guarantees, objects being rebuilt key by key). -/
def goodVal : JsonVal → Bool
  | .null => true
  | .bool _ => true
  | .num n => decide (n.natAbs ≤ 2 ^ 53)
  | .str _ => true
  | .arr xs => goodL xs
  | .obj fs => decide ((fs.map Prod.fst).Nodup) && goodF fs

/-- `goodVal` on array members. -/
def goodL : List JsonVal → Bool
  | [] => true
  | x :: xs => goodVal x && goodL xs

/-- `goodVal` on object members. -/
def goodF : List (String × JsonVal) → Bool
  | [] => true
  | (_, v) :: fs => goodVal v && goodF fs
end

/-- All characters are whitespace. -/
def allWs (l : List Char) : Bool := l.all isWsChar

/-- The next character (if any) does not extend a number token. -/
def numStopB : List Char → Bool
  | [] => true
  | c :: _ => !(isDigitChar c)

/-! ## Concrete fixtures used by witnesses and counterexamples -/

/-- A `yaml.load` behaviour for concrete runs: the text `bad` is malformed,
the empty text is an empty document (`undefined`), anything else parses to
`null`. -/
def loadFix : YamlLoad := fun s =>
  if s = "bad" then .error "unexpected end of the stream"
  else if s = "" then .ok none
  else .ok (some JsonVal.null)

/-- An initially empty destination filesystem. -/
def fsEmpty : FS := ⟨[], []⟩

/-- Two sibling YAML files whose names collide after extension
replacement. -/
def collideTree : List SrcEntry := [.file "a.yml" "x", .file "a.yaml" "y"]

/-- A subdirectory containing no YAML file at all. -/
def noYamlTree : List SrcEntry := [.dir "sub" [.file "readme.txt" "hi"]]

/-- A nested tree with a single YAML file three directories deep. -/
def deepTree : List SrcEntry :=
  [.dir "a" [.dir "b" [.dir "c" [.file "config.yaml" "k: v"]]]]

/-- A flat tree mixing a valid YAML file, a malformed one, a non-YAML file,
and an empty YAML file. -/
def mixedTree : List SrcEntry :=
  [.file "good.yml" "x", .file "bad.yaml" "bad", .file "notes.txt" "n",
   .file "empty.yaml" ""]

/-- A sample document value exercising objects, arrays, strings with
escapes, numbers of both signs, null and booleans. -/
def sampleVal : JsonVal :=
  .obj [("title", .str "a\"b\nc"),
        ("items", .arr [.num 1, .num (-20), .null, .bool true]),
        ("empty", .obj []),
        ("flag", .bool false)]

/-- Separator-and-rest of an array's remaining members in the 2-space
pretty printing (nothing for the last member). -/
def itemsSep (ind : List Char) : List JsonVal → List Char
  | [] => []
  | y :: ys => ',' :: '\n' :: scItems ind (y :: ys)

/-- Separator-and-rest of an object's remaining members in the 2-space
pretty printing (nothing for the last member). -/
def fieldsSep (ind : List Char) : List (String × JsonVal) → List Char
  | [] => []
  | g :: gs => ',' :: '\n' :: scFields ind (g :: gs)

theorem mkdirIfMissing_eq (st : St) (p : FsPath) :
    mkdirIfMissing st p =
      { st with fs := { st.fs with dirs := guardedAdd st.fs.dirs p } } := by
  unfold mkdirIfMissing guardedAdd FS.hasDir FS.mkdirp
  by_cases h : p ∈ st.fs.dirs <;> simp [h]

theorem dirsFold_append (ps qs : List FsPath) (acc : List FsPath) :
    dirsFold (ps ++ qs) acc = dirsFold qs (dirsFold ps acc) := by
  simp [dirsFold, List.foldl_append]

theorem applyWrites_append (ws vs : List (FsPath × String))
    (files : List (FsPath × String)) :
    applyWrites (ws ++ vs) files = applyWrites vs (applyWrites ws files) := by
  simp [applyWrites, List.foldl_append]

mutual
/-- Decomposition of one entry step: the resulting state is the initial
state with the directory trace folded into the directory set, the write
trace folded into the files, the diagnostic trace appended, and the count
advanced by the number of writes. -/
theorem processEntry_eq (load : YamlLoad) (e : SrcEntry) (s d : FsPath) (st : St) :
    processEntry load e s d st =
      { fs := { dirs := dirsFold (visitedE e d) st.fs.dirs,
                files := applyWrites (writesOfE load e d) st.fs.files },
        log := st.log ++ logOfE load e s d,
        count := st.count + (writesOfE load e d).length } :=
  match e with
  | .file name content => by
    by_cases hy : isYamlName name
    · rcases hconv : convertFile load content with msg | text <;>
        simp [processEntry, writesOfE, logOfE, visitedE, hy, hconv, dirsFold,
          applyWrites, FS.writeFile]
    · simp [processEntry, writesOfE, logOfE, visitedE, hy, dirsFold, applyWrites]
  | .dir name sub => by
    rw [processEntry]
    rw [processList_eq load sub (s ++ [name]) (d ++ [name]) _]
    simp [writesOfE, logOfE, visitedE, mkdirIfMissing_eq, dirsFold, applyWrites]
  | .other name => by
    simp [processEntry, writesOfE, logOfE, visitedE, dirsFold, applyWrites]

/-- Decomposition of the sequential processing of an entry list. -/
theorem processList_eq (load : YamlLoad) (l : List SrcEntry) (s d : FsPath) (st : St) :
    processList load l s d st =
      { fs := { dirs := dirsFold (visitedL l d) st.fs.dirs,
                files := applyWrites (writesOfL load l d) st.fs.files },
        log := st.log ++ logOfL load l s d,
        count := st.count + (writesOfL load l d).length } :=
  match l with
  | [] => by simp [processList, writesOfL, logOfL, visitedL, dirsFold, applyWrites]
  | e :: rest => by
    rw [processList]
    rw [processEntry_eq load e s d st]
    rw [processList_eq load rest s d _]
    simp [writesOfL, logOfL, visitedL, dirsFold_append, applyWrites_append,
      List.append_assoc, Nat.add_assoc]
end

/-! ## Lemmas about the filesystem folds -/

theorem lookupFile_dropKey_self (f : List (FsPath × String)) (p : FsPath) :
    lookupFile (dropKey f p) p = none := by
  induction f with
  | nil => rfl
  | cons kv rest ih =>
    by_cases h : kv.1 = p <;> simp [dropKey, lookupFile, h, ih]

theorem lookupFile_dropKey_ne (f : List (FsPath × String)) (p q : FsPath)
    (h : p ≠ q) :
    lookupFile (dropKey f p) q = lookupFile f q := by
  induction f with
  | nil => rfl
  | cons kv rest ih =>
    by_cases hk : kv.1 = p
    · have hne : kv.1 ≠ q := by rw [hk]; exact h
      simp [dropKey, lookupFile, hk, hne, h, ih]
    · by_cases hq : kv.1 = q <;> simp [dropKey, lookupFile, hk, hq, h, Ne.symm h, ih]

theorem lookupFile_setFile (f : List (FsPath × String)) (p : FsPath) (t : String)
    (q : FsPath) :
    lookupFile (setFile f p t) q = if p = q then some t else lookupFile f q := by
  by_cases h : p = q
  · subst h; simp [setFile, lookupFile]
  · simp [setFile, lookupFile, Ne.symm h, h, lookupFile_dropKey_ne f p q h]

theorem lookupFile_applyWrites (ws : List (FsPath × String))
    (f : List (FsPath × String)) (p : FsPath) :
    lookupFile (applyWrites ws f) p =
      match lastVal ws p with
      | some t => some t
      | none => lookupFile f p := by
  induction ws generalizing f with
  | nil => simp [applyWrites, lastVal]
  | cons w rest ih =>
    have step : applyWrites (w :: rest) f = applyWrites rest (setFile f w.1 w.2) := rfl
    rw [step, ih]
    rcases w with ⟨q, t⟩
    rcases h : lastVal rest p with _ | t' <;>
      by_cases hq : q = p <;>
        simp [lastVal, h, hq, lookupFile_setFile]

theorem lastVal_eq_some_mem (ws : List (FsPath × String)) (p : FsPath) (t : String)
    (h : lastVal ws p = some t) : (p, t) ∈ ws := by
  induction ws with
  | nil => simp [lastVal] at h
  | cons w rest ih =>
    rcases w with ⟨q, u⟩
    rcases hrest : lastVal rest p with _ | t'
    · rw [lastVal, hrest] at h
      by_cases hq : q = p
      · subst hq
        simp at h
        simp [h.symm]
      · simp [hq] at h
    · rw [lastVal, hrest] at h
      simp at h
      subst h
      exact List.mem_cons_of_mem _ (ih hrest)

theorem lastVal_none_of_not_key (ws : List (FsPath × String)) (p : FsPath)
    (h : ∀ t, (p, t) ∉ ws) : lastVal ws p = none := by
  induction ws with
  | nil => rfl
  | cons w rest ih =>
    rcases w with ⟨q, u⟩
    have hrest : ∀ t, (p, t) ∉ rest := fun t ht => h t (List.mem_cons_of_mem _ ht)
    have hne : q ≠ p := by
      intro he
      exact h u (by rw [he]; exact List.mem_cons_self _ _)
    rw [lastVal, ih hrest]
    simp [hne]

theorem lastVal_of_mem_nodup (ws : List (FsPath × String)) (p : FsPath) (t : String)
    (hmem : (p, t) ∈ ws) (hnd : (ws.map Prod.fst).Nodup) : lastVal ws p = some t := by
  induction ws with
  | nil => simp at hmem
  | cons w rest ih =>
    rw [List.map_cons, List.nodup_cons] at hnd
    rcases List.mem_cons.mp hmem with he | hm
    · have hw1 : w.1 = p := by rw [← he]
      have hk : ∀ u, (p, u) ∉ rest := by
        intro u hu
        exact hnd.1 (by rw [hw1]; exact List.mem_map_of_mem Prod.fst hu)
      rw [lastVal, lastVal_none_of_not_key rest p hk, ← he]
      simp
    · rw [lastVal, ih hm hnd.2]

theorem dropKey_eq_self_of_lookup_none (f : List (FsPath × String)) (p : FsPath)
    (h : lookupFile f p = none) : dropKey f p = f := by
  induction f with
  | nil => rfl
  | cons kv rest ih =>
    rw [lookupFile] at h
    by_cases hk : kv.1 = p
    · simp [hk] at h
    · simp [hk] at h
      simp [dropKey, hk, ih h]

theorem applyWrites_length_nodup (ws : List (FsPath × String))
    (f : List (FsPath × String)) (hnd : (ws.map Prod.fst).Nodup)
    (hfresh : ∀ w ∈ ws, lookupFile f w.1 = none) :
    (applyWrites ws f).length = f.length + ws.length := by
  induction ws generalizing f with
  | nil => simp [applyWrites]
  | cons w rest ih =>
    have step : applyWrites (w :: rest) f = applyWrites rest (setFile f w.1 w.2) := rfl
    rw [List.map_cons, List.nodup_cons] at hnd
    have hw : lookupFile f w.1 = none := hfresh w (List.mem_cons_self w rest)
    have hlen : (setFile f w.1 w.2).length = f.length + 1 := by
      simp [setFile, dropKey_eq_self_of_lookup_none f w.1 hw]
    have hfresh2 : ∀ v ∈ rest, lookupFile (setFile f w.1 w.2) v.1 = none := by
      intro v hv
      rw [lookupFile_setFile]
      have hne : w.1 ≠ v.1 := by
        intro he
        exact hnd.1 (he ▸ List.mem_map_of_mem Prod.fst hv)
      simp [hne, hfresh v (List.mem_cons_of_mem w hv)]
    rw [step, ih _ hnd.2 hfresh2, hlen]
    simp [Nat.add_assoc, Nat.add_comm 1]

theorem self_mem_ancestors (p : FsPath) (h : p ≠ []) : p ∈ ancestors p := by
  have hl : 0 < p.length := List.length_pos.mpr h
  simp only [ancestors, List.mem_map, List.mem_range]
  exact ⟨p.length - 1, by omega, by rw [Nat.sub_add_cancel hl, List.take_length]⟩

theorem mem_dirsFold_mono (ps : List FsPath) (acc : List FsPath) (x : FsPath)
    (h : x ∈ acc) : x ∈ dirsFold ps acc := by
  induction ps generalizing acc with
  | nil => simpa [dirsFold] using h
  | cons p rest ih =>
    have step : dirsFold (p :: rest) acc = dirsFold rest (guardedAdd acc p) := rfl
    rw [step]
    apply ih
    unfold guardedAdd
    by_cases hp : p ∈ acc <;> simp [hp, h]

theorem mem_dirsFold_of_mem (ps : List FsPath) (acc : List FsPath) (p : FsPath)
    (hmem : p ∈ ps) (hne : p ≠ []) : p ∈ dirsFold ps acc := by
  induction ps generalizing acc with
  | nil => simp at hmem
  | cons q rest ih =>
    have step : dirsFold (q :: rest) acc = dirsFold rest (guardedAdd acc q) := rfl
    rw [step]
    rcases List.mem_cons.mp hmem with he | hm
    · subst he
      apply mem_dirsFold_mono
      unfold guardedAdd
      by_cases hp : p ∈ acc
      · simp [hp]
      · simp [hp, self_mem_ancestors p hne]
    · exact ih (guardedAdd acc q) hm

theorem mem_dirsFold_cases (ps : List FsPath) (acc : List FsPath) (x : FsPath)
    (h : x ∈ dirsFold ps acc) : x ∈ acc ∨ ∃ p ∈ ps, x ∈ ancestors p := by
  induction ps generalizing acc with
  | nil => exact Or.inl (by simpa [dirsFold] using h)
  | cons q rest ih =>
    have step : dirsFold (q :: rest) acc = dirsFold rest (guardedAdd acc q) := rfl
    rw [step] at h
    rcases ih _ h with hacc | ⟨p, hp, hx⟩
    · unfold guardedAdd at hacc
      by_cases hq : q ∈ acc
      · simp [hq] at hacc
        exact Or.inl hacc
      · simp [hq] at hacc
        rcases hacc with hacc | hanc
        · exact Or.inl hacc
        · exact Or.inr ⟨q, List.mem_cons_self q rest, hanc⟩
    · exact Or.inr ⟨p, List.mem_cons_of_mem q hp, hx⟩

/-! ## Relating the traces to the file entries of the source tree -/

mutual
/-- The file entries below an entry at an arbitrary path prefix are those at
the empty prefix, shifted. -/
theorem filesOfE_shift (e : SrcEntry) (q : FsPath) :
    filesOfE e q = (filesOfE e []).map (fun f => (q ++ f.1, f.2)) :=
  match e with
  | .file n c => by simp [filesOfE]
  | .other n => by simp [filesOfE]
  | .dir m sub => by
    simp only [filesOfE, List.nil_append]
    rw [filesOfL_shift sub (q ++ [m]), filesOfL_shift sub [m]]
    simp [List.map_map, Function.comp_def, List.append_assoc]

/-- The file entries below an entry list at an arbitrary path prefix are
those at the empty prefix, shifted. -/
theorem filesOfL_shift (l : List SrcEntry) (q : FsPath) :
    filesOfL l q = (filesOfL l []).map (fun f => (q ++ f.1, f.2)) :=
  match l with
  | [] => by simp [filesOfL]
  | e :: rest => by
    simp only [filesOfL]
    rw [filesOfE_shift e q, filesOfL_shift rest q]
    simp
end

mutual
/-- The writes below an entry at an arbitrary destination prefix are those
at the empty prefix, shifted. -/
theorem writesOfE_shift (load : YamlLoad) (e : SrcEntry) (d : FsPath) :
    writesOfE load e d = (writesOfE load e []).map (fun w => (d ++ w.1, w.2)) :=
  match e with
  | .file n c => by
    by_cases hy : isYamlName n
    · rcases hc : convertFile load c with msg | text <;> simp [writesOfE, hy, hc]
    · simp [writesOfE, hy]
  | .other n => by simp [writesOfE]
  | .dir m sub => by
    simp only [writesOfE, List.nil_append]
    rw [writesOfL_shift load sub (d ++ [m]), writesOfL_shift load sub [m]]
    simp [List.map_map, Function.comp_def, List.append_assoc]

/-- The writes below an entry list at an arbitrary destination prefix are
those at the empty prefix, shifted. -/
theorem writesOfL_shift (load : YamlLoad) (l : List SrcEntry) (d : FsPath) :
    writesOfL load l d = (writesOfL load l []).map (fun w => (d ++ w.1, w.2)) :=
  match l with
  | [] => by simp [writesOfL]
  | e :: rest => by
    simp only [writesOfL]
    rw [writesOfE_shift load e d, writesOfL_shift load rest d]
    simp
end

mutual
/-- Every `.yml`/`.yaml` file that converts successfully contributes its
write, at the mirrored relative path with the extension replaced. -/
theorem mem_writes_of_filesE (load : YamlLoad) (e : SrcEntry) (rel : FsPath)
    (n c : String) (text : String) (hf : (rel, n, c) ∈ filesOfE e [])
    (hy : isYamlName n = true) (hok : convertFile load c = .ok text) :
    (rel ++ [jsonFileName n], text) ∈ writesOfE load e [] :=
  match e with
  | .file n' c' => by
    simp [filesOfE] at hf
    obtain ⟨hrel, hn, hc⟩ := hf
    subst hrel; subst hn; subst hc
    simp [writesOfE, hy, hok]
  | .other n' => by simp [filesOfE] at hf
  | .dir m sub => by
    simp only [filesOfE, List.nil_append] at hf
    rw [filesOfL_shift sub [m]] at hf
    simp only [List.mem_map] at hf
    obtain ⟨⟨rel2, n2, c2⟩, hmem2, heq⟩ := hf
    simp at heq
    obtain ⟨hrel, hn, hc⟩ := heq
    rw [← hn] at hy
    rw [← hc] at hok
    have hsub := mem_writes_of_filesL load sub rel2 n2 c2 text hmem2 hy hok
    simp only [writesOfE, List.nil_append]
    rw [writesOfL_shift load sub [m]]
    simp only [List.mem_map]
    exact ⟨(rel2 ++ [jsonFileName n2], text), hsub, by simp [← hrel, ← hn]⟩

/-- List version of `mem_writes_of_filesE`. -/
theorem mem_writes_of_filesL (load : YamlLoad) (l : List SrcEntry) (rel : FsPath)
    (n c : String) (text : String) (hf : (rel, n, c) ∈ filesOfL l [])
    (hy : isYamlName n = true) (hok : convertFile load c = .ok text) :
    (rel ++ [jsonFileName n], text) ∈ writesOfL load l [] :=
  match l with
  | [] => by simp [filesOfL] at hf
  | e :: rest => by
    simp only [filesOfL, List.mem_append] at hf
    simp only [writesOfL, List.mem_append]
    rcases hf with hf | hf
    · exact Or.inl (mem_writes_of_filesE load e rel n c text hf hy hok)
    · exact Or.inr (mem_writes_of_filesL load rest rel n c text hf hy hok)
end

mutual
/-- Every write of the trace originates from a `.yml`/`.yaml` file entry
that converted successfully, and its path is the mirrored relative path. -/
theorem mem_files_of_writesE (load : YamlLoad) (e : SrcEntry) (p : FsPath)
    (text : String) (hw : (p, text) ∈ writesOfE load e []) :
    ∃ rel n c, (rel, n, c) ∈ filesOfE e [] ∧ isYamlName n = true ∧
      convertFile load c = .ok text ∧ p = rel ++ [jsonFileName n] :=
  match e with
  | .file n' c' => by
    by_cases hy : isYamlName n'
    · rcases hc : convertFile load c' with msg | t
      · simp [writesOfE, hy, hc] at hw
      · simp [writesOfE, hy, hc] at hw
        exact ⟨[], n', c', by simp [filesOfE], hy, by rw [hc, hw.2], by simp [hw.1]⟩
    · simp [writesOfE, hy] at hw
  | .other n' => by simp [writesOfE] at hw
  | .dir m sub => by
    simp only [writesOfE, List.nil_append] at hw
    rw [writesOfL_shift load sub [m]] at hw
    simp only [List.mem_map] at hw
    obtain ⟨⟨p2, t2⟩, hmem2, heq⟩ := hw
    simp at heq
    obtain ⟨hp, ht⟩ := heq
    obtain ⟨rel2, n, c, hmem, hy, hok, hp2⟩ := mem_files_of_writesL load sub p2 t2 hmem2
    refine ⟨[m] ++ rel2, n, c, ?_, hy, ?_, ?_⟩
    · simp only [filesOfE, List.nil_append]
      rw [filesOfL_shift sub [m]]
      simp only [List.mem_map]
      exact ⟨(rel2, n, c), hmem, by simp⟩
    · rw [hok, ht]
    · rw [← hp, hp2]; simp

/-- List version of `mem_files_of_writesE`. -/
theorem mem_files_of_writesL (load : YamlLoad) (l : List SrcEntry) (p : FsPath)
    (text : String) (hw : (p, text) ∈ writesOfL load l []) :
    ∃ rel n c, (rel, n, c) ∈ filesOfL l [] ∧ isYamlName n = true ∧
      convertFile load c = .ok text ∧ p = rel ++ [jsonFileName n] :=
  match l with
  | [] => by simp [writesOfL] at hw
  | e :: rest => by
    simp only [writesOfL, List.mem_append] at hw
    rcases hw with hw | hw
    · obtain ⟨rel, n, c, hm, hy, hok, hp⟩ := mem_files_of_writesE load e p text hw
      exact ⟨rel, n, c, by simp [filesOfL, List.mem_append, hm], hy, hok, hp⟩
    · obtain ⟨rel, n, c, hm, hy, hok, hp⟩ := mem_files_of_writesL load rest p text hw
      exact ⟨rel, n, c, by simp [filesOfL, List.mem_append, hm], hy, hok, hp⟩
end

theorem lastVal_isSome_of_mem (ws : List (FsPath × String)) (p : FsPath)
    (t : String) (h : (p, t) ∈ ws) : (lastVal ws p).isSome = true := by
  induction ws with
  | nil => simp at h
  | cons w rest ih =>
    rcases w with ⟨q, u⟩
    rcases List.mem_cons.mp h with he | hm
    · rcases hrest : lastVal rest p with _ | t'
      · have hq : q = p := by
          have := congrArg Prod.fst he
          simpa using this.symm
        simp [lastVal, hrest, hq]
      · simp [lastVal, hrest]
    · rcases hrest : lastVal rest p with _ | t'
      · have := ih hm
        rw [hrest] at this
        simp at this
      · simp [lastVal, hrest]

theorem applyWrites_isSome_of_mem (ws : List (FsPath × String))
    (f : List (FsPath × String)) (p : FsPath) (t : String) (h : (p, t) ∈ ws) :
    (lookupFile (applyWrites ws f) p).isSome = true := by
  rw [lookupFile_applyWrites]
  rcases hl : lastVal ws p with _ | t'
  · have := lastVal_isSome_of_mem ws p t h
    rw [hl] at this
    simp at this
  · simp

mutual
/-- Count of writes below an entry equals the count of its successfully
converting YAML files. -/
theorem writesOfE_length (load : YamlLoad) (e : SrcEntry) (s d : FsPath) :
    (writesOfE load e d).length =
      ((filesOfE e s).filter
        (fun f => isYamlName f.2.1 && convOk load f.2.2)).length :=
  match e with
  | .file n c => by
    by_cases hy : isYamlName n
    · rcases hc : convertFile load c with msg | text <;>
        simp [writesOfE, filesOfE, hy, convOk, hc]
    · simp [writesOfE, filesOfE, hy, convOk]
  | .other n => by simp [writesOfE, filesOfE]
  | .dir m sub => by
    simp only [writesOfE, List.nil_append, filesOfE]
    exact writesOfL_length load sub (s ++ [m]) (d ++ [m])

/-- Count of writes below an entry list equals the count of successfully
converting YAML files. -/
theorem writesOfL_length (load : YamlLoad) (l : List SrcEntry) (s d : FsPath) :
    (writesOfL load l d).length =
      ((filesOfL l s).filter
        (fun f => isYamlName f.2.1 && convOk load f.2.2)).length :=
  match l with
  | [] => by simp [writesOfL, filesOfL]
  | e :: rest => by
    simp only [writesOfL, filesOfL, List.length_append, List.filter_append]
    rw [writesOfE_length load e s d, writesOfL_length load rest s d]
end

theorem writesOfL_length_success (load : YamlLoad) (l : List SrcEntry)
    (s d : FsPath) :
    (writesOfL load l d).length = (successFiles load l s).length := by
  rw [successFiles]
  exact writesOfL_length load l s d

mutual
/-- A YAML file whose conversion raises produces its error diagnostic,
naming its source path, wherever the entry sits. -/
theorem errDiag_mem_logOfE (load : YamlLoad) (e : SrcEntry) (s d rel : FsPath)
    (n c msg : String) (hf : (rel, n, c) ∈ filesOfE e [])
    (hy : isYamlName n = true) (herr : convertFile load c = .error msg) :
    Diag.errorFile (s ++ rel ++ [n]) msg ∈ logOfE load e s d :=
  match e with
  | .file n' c' => by
    simp [filesOfE] at hf
    obtain ⟨hrel, hn, hc⟩ := hf
    subst hrel
    rw [hn] at hy
    rw [hc] at herr
    simp [logOfE, hy, herr, hn]
  | .other n' => by simp [filesOfE] at hf
  | .dir m sub => by
    simp only [filesOfE, List.nil_append] at hf
    rw [filesOfL_shift sub [m]] at hf
    simp only [List.mem_map] at hf
    obtain ⟨⟨rel2, n2, c2⟩, hmem2, heq⟩ := hf
    simp at heq
    obtain ⟨hrel, hn, hc⟩ := heq
    rw [← hn] at hy
    rw [← hc] at herr
    have hsub := errDiag_mem_logOfL load sub (s ++ [m]) (d ++ [m]) rel2 n2 c2 msg
      hmem2 hy herr
    simp only [logOfE]
    have : s ++ rel ++ [n] = s ++ [m] ++ rel2 ++ [n2] := by
      rw [← hrel, ← hn]
      simp
    rw [this]
    exact hsub

/-- List version of `errDiag_mem_logOfE`. -/
theorem errDiag_mem_logOfL (load : YamlLoad) (l : List SrcEntry) (s d rel : FsPath)
    (n c msg : String) (hf : (rel, n, c) ∈ filesOfL l [])
    (hy : isYamlName n = true) (herr : convertFile load c = .error msg) :
    Diag.errorFile (s ++ rel ++ [n]) msg ∈ logOfL load l s d :=
  match l with
  | [] => by simp [filesOfL] at hf
  | e :: rest => by
    simp only [filesOfL, List.mem_append] at hf
    simp only [logOfL, List.mem_append]
    rcases hf with hf | hf
    · exact Or.inl (errDiag_mem_logOfE load e s d rel n c msg hf hy herr)
    · exact Or.inr (errDiag_mem_logOfL load rest s d rel n c msg hf hy herr)
end

mutual
/-- A YAML file that converts successfully produces its informational
diagnostic, naming both paths, wherever the entry sits. -/
theorem infoDiag_mem_logOfE (load : YamlLoad) (e : SrcEntry) (s d rel : FsPath)
    (n c text : String) (hf : (rel, n, c) ∈ filesOfE e [])
    (hy : isYamlName n = true) (hok : convertFile load c = .ok text) :
    Diag.infoConverted (s ++ rel ++ [n]) (d ++ rel ++ [jsonFileName n]) ∈
      logOfE load e s d :=
  match e with
  | .file n' c' => by
    simp [filesOfE] at hf
    obtain ⟨hrel, hn, hc⟩ := hf
    subst hrel
    rw [hn] at hy
    rw [hc] at hok
    simp [logOfE, hy, hok, hn]
  | .other n' => by simp [filesOfE] at hf
  | .dir m sub => by
    simp only [filesOfE, List.nil_append] at hf
    rw [filesOfL_shift sub [m]] at hf
    simp only [List.mem_map] at hf
    obtain ⟨⟨rel2, n2, c2⟩, hmem2, heq⟩ := hf
    simp at heq
    obtain ⟨hrel, hn, hc⟩ := heq
    rw [← hn] at hy
    rw [← hc] at hok
    have hsub := infoDiag_mem_logOfL load sub (s ++ [m]) (d ++ [m]) rel2 n2 c2 text
      hmem2 hy hok
    simp only [logOfE]
    have h1 : s ++ rel ++ [n] = s ++ [m] ++ rel2 ++ [n2] := by
      rw [← hrel, ← hn]; simp
    have h2 : d ++ rel ++ [jsonFileName n] = d ++ [m] ++ rel2 ++ [jsonFileName n2] := by
      rw [← hrel, ← hn]; simp
    rw [h1, h2]
    exact hsub

/-- List version of `infoDiag_mem_logOfE`. -/
theorem infoDiag_mem_logOfL (load : YamlLoad) (l : List SrcEntry) (s d rel : FsPath)
    (n c text : String) (hf : (rel, n, c) ∈ filesOfL l [])
    (hy : isYamlName n = true) (hok : convertFile load c = .ok text) :
    Diag.infoConverted (s ++ rel ++ [n]) (d ++ rel ++ [jsonFileName n]) ∈
      logOfL load l s d :=
  match l with
  | [] => by simp [filesOfL] at hf
  | e :: rest => by
    simp only [filesOfL, List.mem_append] at hf
    simp only [logOfL, List.mem_append]
    rcases hf with hf | hf
    · exact Or.inl (infoDiag_mem_logOfE load e s d rel n c text hf hy hok)
    · exact Or.inr (infoDiag_mem_logOfL load rest s d rel n c text hf hy hok)
end

mutual
/-- Every per-file diagnostic names the source path of a `.yml`/`.yaml`
file entry: diagnostics are only produced for attempted conversions. -/
theorem diagSrc_logOfE (load : YamlLoad) (e : SrcEntry) (s d : FsPath)
    (diag : Diag) (hd : diag ∈ logOfE load e s d) (p : FsPath)
    (hp : diagSrc diag = some p) :
    ∃ rel n c, (rel, n, c) ∈ filesOfE e [] ∧ isYamlName n = true ∧
      p = s ++ rel ++ [n] :=
  match e with
  | .file n' c' => by
    by_cases hy : isYamlName n'
    · rcases hc : convertFile load c' with msg | text <;>
        · simp [logOfE, hy, hc] at hd
          subst hd
          simp [diagSrc] at hp
          exact ⟨[], n', c', by simp [filesOfE], hy, by simp [← hp]⟩
    · simp [logOfE, hy] at hd
  | .other n' => by simp [logOfE] at hd
  | .dir m sub => by
    simp only [logOfE] at hd
    obtain ⟨rel2, n, c, hmem, hy, hpath⟩ :=
      diagSrc_logOfL load sub (s ++ [m]) (d ++ [m]) diag hd p hp
    refine ⟨[m] ++ rel2, n, c, ?_, hy, by rw [hpath]; simp⟩
    simp only [filesOfE, List.nil_append]
    rw [filesOfL_shift sub [m]]
    simp only [List.mem_map]
    exact ⟨(rel2, n, c), hmem, by simp⟩

/-- List version of `diagSrc_logOfE`. -/
theorem diagSrc_logOfL (load : YamlLoad) (l : List SrcEntry) (s d : FsPath)
    (diag : Diag) (hd : diag ∈ logOfL load l s d) (p : FsPath)
    (hp : diagSrc diag = some p) :
    ∃ rel n c, (rel, n, c) ∈ filesOfL l [] ∧ isYamlName n = true ∧
      p = s ++ rel ++ [n] :=
  match l with
  | [] => by simp [logOfL] at hd
  | e :: rest => by
    simp only [logOfL, List.mem_append] at hd
    rcases hd with hd | hd
    · obtain ⟨rel, n, c, hm, hy, hpath⟩ := diagSrc_logOfE load e s d diag hd p hp
      exact ⟨rel, n, c, by simp [filesOfL, List.mem_append, hm], hy, hpath⟩
    · obtain ⟨rel, n, c, hm, hy, hpath⟩ := diagSrc_logOfL load rest s d diag hd p hp
      exact ⟨rel, n, c, by simp [filesOfL, List.mem_append, hm], hy, hpath⟩
end

mutual
/-- Every proper directory level above a file entry is a visited
destination directory: the walk creates the whole mirrored chain. -/
theorem visited_take_filesE (e : SrcEntry) (d rel : FsPath) (n c : String)
    (hf : (rel, n, c) ∈ filesOfE e []) (i : Nat) (hi : 0 < i)
    (hle : i ≤ rel.length) : d ++ rel.take i ∈ visitedE e d :=
  match e with
  | .file n' c' => by
    simp [filesOfE] at hf
    obtain ⟨hrel, _, _⟩ := hf
    subst hrel
    simp at hle
    omega
  | .other n' => by simp [filesOfE] at hf
  | .dir m sub => by
    simp only [filesOfE, List.nil_append] at hf
    rw [filesOfL_shift sub [m]] at hf
    simp only [List.mem_map] at hf
    obtain ⟨⟨rel2, n2, c2⟩, hmem2, heq⟩ := hf
    simp at heq
    obtain ⟨hrel, hn, hc⟩ := heq
    rcases i with _ | j
    · omega
    · rcases Nat.eq_zero_or_pos j with hj | hj
      · subst hj
        have : rel.take 1 = [m] := by rw [← hrel]; simp
        rw [this]
        simp [visitedE]
      · have hlen : rel.length = rel2.length + 1 := by rw [← hrel]; simp
        have htake : rel.take (j + 1) = m :: rel2.take j := by
          rw [← hrel]
          simp [List.take_cons]
        rw [htake]
        have hsub := visited_take_filesL sub (d ++ [m]) rel2 n2 c2 hmem2 j hj
          (by omega)
        simp only [visitedE, List.mem_cons]
        right
        simpa using hsub

/-- List version of `visited_take_filesE`. -/
theorem visited_take_filesL (l : List SrcEntry) (d rel : FsPath) (n c : String)
    (hf : (rel, n, c) ∈ filesOfL l []) (i : Nat) (hi : 0 < i)
    (hle : i ≤ rel.length) : d ++ rel.take i ∈ visitedL l d :=
  match l with
  | [] => by simp [filesOfL] at hf
  | e :: rest => by
    simp only [filesOfL, List.mem_append] at hf
    simp only [visitedL, List.mem_append]
    rcases hf with hf | hf
    · exact Or.inl (visited_take_filesE e d rel n c hf i hi hle)
    · exact Or.inr (visited_take_filesL rest d rel n c hf i hi hle)
end

mutual
/-- Every visited destination directory is nonempty (it extends the parent
by one segment). -/
theorem visitedE_ne_nil (e : SrcEntry) (d : FsPath) (v : FsPath)
    (hv : v ∈ visitedE e d) : v ≠ [] :=
  match e with
  | .file n' c' => by simp [visitedE] at hv
  | .other n' => by simp [visitedE] at hv
  | .dir m sub => by
    simp only [visitedE, List.mem_cons] at hv
    rcases hv with hv | hv
    · subst hv
      simp
    · exact visitedL_ne_nil sub (d ++ [m]) v hv

/-- List version of `visitedE_ne_nil`. -/
theorem visitedL_ne_nil (l : List SrcEntry) (d : FsPath) (v : FsPath)
    (hv : v ∈ visitedL l d) : v ≠ [] :=
  match l with
  | [] => by simp [visitedL] at hv
  | e :: rest => by
    simp only [visitedL, List.mem_append] at hv
    rcases hv with hv | hv
    · exact visitedE_ne_nil e d v hv
    · exact visitedL_ne_nil rest d v hv
end

/-- Unfolding `processYamlToJson` on a missing source root. -/
theorem processYamlToJson_none_eq (load : YamlLoad) (srcRoot destRoot : FsPath)
    (fs0 : FS) :
    processYamlToJson load srcRoot destRoot none fs0 =
      { fs := { dirs := guardedAdd fs0.dirs destRoot, files := fs0.files },
        log := [Diag.warnConfigMissing srcRoot],
        count := 0 } := by
  simp [processYamlToJson, mkdirIfMissing_eq]

/-- Unfolding `processYamlToJson` on an existing source root: the fold of
the traces, with the destination root ensured twice (lines 93–96 and the
root `processDir`'s own check). -/
theorem processYamlToJson_some_eq (load : YamlLoad) (srcRoot destRoot : FsPath)
    (entries : List SrcEntry) (fs0 : FS) :
    processYamlToJson load srcRoot destRoot (some entries) fs0 =
      { fs := { dirs := dirsFold (destRoot :: destRoot :: visitedL entries destRoot)
                  fs0.dirs,
                files := applyWrites (writesOfL load entries destRoot) fs0.files },
        log := logOfL load entries srcRoot destRoot ++
          [Diag.infoCompleted (writesOfL load entries destRoot).length],
        count := (writesOfL load entries destRoot).length } := by
  show (let st3 := processList load entries srcRoot destRoot
          (mkdirIfMissing (mkdirIfMissing ⟨fs0, [], 0⟩ destRoot) destRoot)
        { st3 with log := st3.log ++ [Diag.infoCompleted st3.count] }) = _
  rw [mkdirIfMissing_eq, mkdirIfMissing_eq, processList_eq]
  simp [dirsFold]

/-! ## The claims -/

/-- Claim C3, counterexample: with a missing source root the converter does
return count 0 — but it is false that it "performs no filesystem writes (in
particular, it does not create the destination root)": starting from an
empty filesystem, the destination root `data` has been created (lines 93–96
run before the source-root check of lines 98–101). -/
theorem c3_counterexample :
    (processYamlToJson loadFix ["config"] ["data"] none fsEmpty).count = 0 ∧
    fsEmpty.dirs = ([] : List FsPath) ∧
    (processYamlToJson loadFix ["config"] ["data"] none fsEmpty).fs.dirs = [["data"]] :=
  ⟨rfl, rfl, rfl⟩

/-- Claim C3, amended: if the source root does not exist, `convert` returns
immediately with a processed count of 0, emits exactly the warning-level
diagnostic, and writes no files — but it first ensures the destination root
exists, creating it (with its ancestors) when missing; that guarded
creation is its only filesystem mutation. -/
theorem c3_missing_source (load : YamlLoad) (srcRoot destRoot : FsPath) (fs0 : FS) :
    (processYamlToJson load srcRoot destRoot none fs0).count = 0 ∧
    (processYamlToJson load srcRoot destRoot none fs0).log =
      [Diag.warnConfigMissing srcRoot] ∧
    (processYamlToJson load srcRoot destRoot none fs0).fs.files = fs0.files ∧
    (processYamlToJson load srcRoot destRoot none fs0).fs.dirs =
      guardedAdd fs0.dirs destRoot := by
  rw [processYamlToJson_none_eq]
  exact ⟨rfl, rfl, rfl, rfl⟩

/-- Claim C9, counterexample: the source subdirectory `sub` contains no
YAML file (no file converts), yet the mirrored destination directory
`data/sub` is created — `processDir` runs `mkdirSync` unconditionally on
entry (lines 107–109), before looking at any entry. -/
theorem c9_counterexample :
    (successFiles loadFix noYamlTree ["config"]).length = 0 ∧
    ["data", "sub"] ∈
      (processYamlToJson loadFix ["config"] ["data"] (some noYamlTree) fsEmpty).fs.dirs :=
  ⟨rfl, by decide⟩

/-- Claim C9, amended: the destination root is created (when missing)
before any file is written, and a mirrored destination directory is created
for every source subdirectory the traversal descends into — whether or not
it contains convertible files; conversely everything in the final directory
set was already present or is an ancestor of the destination root or of a
mirrored subdirectory. -/
theorem c9_dirs_created (load : YamlLoad) (srcRoot destRoot : FsPath)
    (entries : List SrcEntry) (fs0 : FS) :
    (∀ v ∈ destRoot :: visitedL entries destRoot, v ≠ [] →
      v ∈ (processYamlToJson load srcRoot destRoot (some entries) fs0).fs.dirs) ∧
    (∀ x ∈ (processYamlToJson load srcRoot destRoot (some entries) fs0).fs.dirs,
      x ∈ fs0.dirs ∨
        ∃ v ∈ destRoot :: visitedL entries destRoot, x ∈ ancestors v) := by
  rw [processYamlToJson_some_eq]
  constructor
  · intro v hv hne
    apply mem_dirsFold_of_mem _ _ _ _ hne
    rcases List.mem_cons.mp hv with he | hm
    · subst he
      exact List.mem_cons_self _ _
    · exact List.mem_cons_of_mem _ (List.mem_cons_of_mem _ hm)
  · intro x hx
    rcases mem_dirsFold_cases _ _ _ hx with hacc | ⟨v, hv, hanc⟩
    · exact Or.inl hacc
    · rcases List.mem_cons.mp hv with he | hv2
      · exact Or.inr ⟨v, by rw [he]; exact List.mem_cons_self _ _, hanc⟩
      · exact Or.inr ⟨v, hv2, hanc⟩

/-- Witness for `c9_dirs_created`: on the concrete tree whose only
subdirectory holds no YAML file, the mirrored directory is nevertheless in
the final directory set. -/
theorem c9_dirs_created_witness :
    ["data", "sub"] ∈
      (processYamlToJson loadFix ["config"] ["data"] (some noYamlTree) fsEmpty).fs.dirs :=
  (c9_dirs_created loadFix ["config"] ["data"] noYamlTree fsEmpty).1
    ["data", "sub"] (by decide) (by decide)

/-- Claim C1, counterexample: `a.yml` and `a.yaml` are two YAML files that
both convert successfully (N = 2, and the reported count is 2), but both
map to the destination name `a.json`, so only one destination file exists —
not "exactly N". -/
theorem c1_counterexample :
    (successFiles loadFix collideTree ["config"]).length = 2 ∧
    (processYamlToJson loadFix ["config"] ["data"] (some collideTree) fsEmpty).count = 2 ∧
    (processYamlToJson loadFix ["config"] ["data"]
      (some collideTree) fsEmpty).fs.files.length = 1 :=
  ⟨rfl, rfl, rfl⟩

/-- Claim C1, amended: into an initially file-free destination, provided no
two converted YAML files map to the same destination path (the only
collision is a `foo.yml`/`foo.yaml` pair in one directory), exactly N
destination files exist — one per converted YAML file at its corresponding
relative path with its content — every destination file is one of those
outputs (so nothing is produced for the M non-YAML files), and the reported
count equals N, the number of successfully converting YAML files. -/
theorem c1_mirror_counts (load : YamlLoad) (srcRoot destRoot : FsPath)
    (entries : List SrcEntry) (fs0 : FS)
    (hnd : ((writesOfL load entries destRoot).map Prod.fst).Nodup)
    (hfiles : fs0.files = []) :
    (processYamlToJson load srcRoot destRoot (some entries) fs0).count =
      (successFiles load entries srcRoot).length ∧
    (processYamlToJson load srcRoot destRoot (some entries) fs0).fs.files.length =
      (successFiles load entries srcRoot).length ∧
    (∀ p t, (p, t) ∈ writesOfL load entries destRoot →
      lookupFile (processYamlToJson load srcRoot destRoot
        (some entries) fs0).fs.files p = some t) ∧
    (∀ p, (lookupFile (processYamlToJson load srcRoot destRoot
        (some entries) fs0).fs.files p).isSome = true →
      ∃ t, (p, t) ∈ writesOfL load entries destRoot) := by
  rw [processYamlToJson_some_eq]
  refine ⟨?_, ?_, ?_, ?_⟩
  · simpa using writesOfL_length_success load entries srcRoot destRoot
  · show (applyWrites (writesOfL load entries destRoot) fs0.files).length = _
    rw [hfiles,
      applyWrites_length_nodup (writesOfL load entries destRoot) [] hnd
        (fun w _ => rfl)]
    simpa using writesOfL_length_success load entries srcRoot destRoot
  · intro p t hw
    show lookupFile (applyWrites (writesOfL load entries destRoot) fs0.files) p = some t
    rw [lookupFile_applyWrites, lastVal_of_mem_nodup _ _ _ hw hnd]
  · intro p hs
    have hs2 : (lookupFile (applyWrites (writesOfL load entries destRoot)
        fs0.files) p).isSome = true := hs
    rw [lookupFile_applyWrites] at hs2
    rcases hl : lastVal (writesOfL load entries destRoot) p with _ | t
    · rw [hl, hfiles] at hs2
      simp [lookupFile] at hs2
    · exact ⟨t, lastVal_eq_some_mem _ _ _ hl⟩

/-- Witness for `c1_mirror_counts`: on the mixed tree (one valid YAML file,
one malformed, one non-YAML, one empty YAML), the count is 1 and the single
output is `data/good.json` containing the serialized document. -/
theorem c1_mirror_counts_witness :
    (processYamlToJson loadFix ["config"] ["data"] (some mixedTree) fsEmpty).count = 1 ∧
    lookupFile (processYamlToJson loadFix ["config"] ["data"]
      (some mixedTree) fsEmpty).fs.files ["data", "good.json"] =
      some (jsonStringify JsonVal.null) := by
  have h := c1_mirror_counts loadFix ["config"] ["data"] mixedTree fsEmpty
    (by decide) rfl
  exact ⟨by rw [h.1]; rfl, h.2.2.1 ["data", "good.json"] (jsonStringify JsonVal.null)
    (by decide)⟩

/-- Claim C5: a second run over the unchanged source snapshot, starting
from the filesystem the first run produced, yields the same file contents
at every path (byte-identical outputs, each destination file overwritten
with the same text), the same count, and the same diagnostics. -/
theorem c5_idempotent (load : YamlLoad) (srcRoot destRoot : FsPath)
    (src : Option (List SrcEntry)) (fs0 : FS) (p : FsPath) :
    lookupFile (processYamlToJson load srcRoot destRoot src
      (processYamlToJson load srcRoot destRoot src fs0).fs).fs.files p =
      lookupFile (processYamlToJson load srcRoot destRoot src fs0).fs.files p ∧
    (processYamlToJson load srcRoot destRoot src
      (processYamlToJson load srcRoot destRoot src fs0).fs).count =
      (processYamlToJson load srcRoot destRoot src fs0).count ∧
    (processYamlToJson load srcRoot destRoot src
      (processYamlToJson load srcRoot destRoot src fs0).fs).log =
      (processYamlToJson load srcRoot destRoot src fs0).log := by
  rcases src with _ | entries
  · simp only [processYamlToJson_none_eq]
    exact ⟨trivial, trivial, trivial⟩
  · simp only [processYamlToJson_some_eq]
    refine ⟨?_, trivial, trivial⟩
    show lookupFile (applyWrites (writesOfL load entries destRoot)
        (applyWrites (writesOfL load entries destRoot) fs0.files)) p =
      lookupFile (applyWrites (writesOfL load entries destRoot) fs0.files) p
    simp only [lookupFile_applyWrites]
    cases hval : lastVal (writesOfL load entries destRoot) p <;> simp [hval]

/-- Claim C2: a malformed YAML file fails in isolation: its error-level
diagnostic (naming its source path and the parser's message) is emitted,
the final count still equals the number of successfully converting YAML
files, and every other valid YAML file is still converted — its output file
exists in the destination. -/
theorem c2_error_isolation (load : YamlLoad) (srcRoot destRoot : FsPath)
    (entries : List SrcEntry) (fs0 : FS) (rel : FsPath) (n c msg : String)
    (hf : (rel, n, c) ∈ filesOfL entries []) (hy : isYamlName n = true)
    (herr : load c = .error msg) :
    Diag.errorFile (srcRoot ++ rel ++ [n]) msg ∈
      (processYamlToJson load srcRoot destRoot (some entries) fs0).log ∧
    (processYamlToJson load srcRoot destRoot (some entries) fs0).count =
      (successFiles load entries srcRoot).length ∧
    (∀ rel2 n2 c2 t2, (rel2, n2, c2) ∈ filesOfL entries [] →
      isYamlName n2 = true → convertFile load c2 = .ok t2 →
      (lookupFile (processYamlToJson load srcRoot destRoot
        (some entries) fs0).fs.files
        (destRoot ++ rel2 ++ [jsonFileName n2])).isSome = true) := by
  have hconv : convertFile load c = .error msg := by
    rw [convertFile, herr]
  rw [processYamlToJson_some_eq]
  refine ⟨?_, ?_, ?_⟩
  · exact List.mem_append_left _
      (errDiag_mem_logOfL load entries srcRoot destRoot rel n c msg hf hy hconv)
  · simpa using writesOfL_length_success load entries srcRoot destRoot
  · intro rel2 n2 c2 t2 hf2 hy2 hok2
    have hw0 := mem_writes_of_filesL load entries rel2 n2 c2 t2 hf2 hy2 hok2
    have hw : (destRoot ++ rel2 ++ [jsonFileName n2], t2) ∈
        writesOfL load entries destRoot := by
      rw [writesOfL_shift load entries destRoot]
      simp only [List.mem_map]
      exact ⟨(rel2 ++ [jsonFileName n2], t2), hw0, by simp⟩
    exact applyWrites_isSome_of_mem _ _ _ _ hw

/-- Witness for `c2_error_isolation`: on the mixed tree, `bad.yaml`'s error
diagnostic appears and `good.yml` is still converted. -/
theorem c2_error_isolation_witness :
    Diag.errorFile ["config", "bad.yaml"] "unexpected end of the stream" ∈
      (processYamlToJson loadFix ["config"] ["data"] (some mixedTree) fsEmpty).log ∧
    (lookupFile (processYamlToJson loadFix ["config"] ["data"]
      (some mixedTree) fsEmpty).fs.files ["data", "good.json"]).isSome = true := by
  have h := c2_error_isolation loadFix ["config"] ["data"] mixedTree fsEmpty
    [] "bad.yaml" "bad" "unexpected end of the stream" (by decide) (by decide) rfl
  have h2 := h.2.2 [] "good.yml" "x" (jsonStringify JsonVal.null)
    (by decide) (by decide) rfl
  have hname : jsonFileName "good.yml" = "good.json" := rfl
  refine ⟨by simpa using h.1, ?_⟩
  simpa [hname] using h2

/-- Claim C6: a conversion is attempted exactly for file entries whose name
ends in `.yml` or `.yaml` (case-sensitively): every per-file diagnostic of
the run names the source path of such a file (so skipped entries are
silent), every such file produces a diagnostic (the attempt), and every
destination file beyond the initial ones is the output of such a file (so
skipped entries produce no destination file). -/
theorem c6_yaml_filter (load : YamlLoad) (srcRoot destRoot : FsPath)
    (entries : List SrcEntry) (fs0 : FS) :
    (∀ diag ∈ (processYamlToJson load srcRoot destRoot
        (some entries) fs0).log, ∀ p, diagSrc diag = some p →
      ∃ rel n c, (rel, n, c) ∈ filesOfL entries [] ∧ isYamlName n = true ∧
        p = srcRoot ++ rel ++ [n]) ∧
    (∀ rel n c, (rel, n, c) ∈ filesOfL entries [] → isYamlName n = true →
      ∃ diag ∈ (processYamlToJson load srcRoot destRoot
        (some entries) fs0).log, diagSrc diag = some (srcRoot ++ rel ++ [n])) ∧
    (∀ p, (lookupFile (processYamlToJson load srcRoot destRoot
        (some entries) fs0).fs.files p).isSome = true →
      (lookupFile fs0.files p).isSome = true ∨
      ∃ rel n c, (rel, n, c) ∈ filesOfL entries [] ∧ isYamlName n = true ∧
        p = destRoot ++ rel ++ [jsonFileName n]) := by
  rw [processYamlToJson_some_eq]
  refine ⟨?_, ?_, ?_⟩
  · intro diag hd p hp
    rcases List.mem_append.mp hd with hd | hd
    · exact diagSrc_logOfL load entries srcRoot destRoot diag hd p hp
    · simp at hd
      rw [hd] at hp
      simp [diagSrc] at hp
  · intro rel n c hf hy
    rcases hc : convertFile load c with msg | text
    · exact ⟨Diag.errorFile (srcRoot ++ rel ++ [n]) msg,
        List.mem_append_left _
          (errDiag_mem_logOfL load entries srcRoot destRoot rel n c msg hf hy hc),
        rfl⟩
    · exact ⟨Diag.infoConverted (srcRoot ++ rel ++ [n])
          (destRoot ++ rel ++ [jsonFileName n]),
        List.mem_append_left _
          (infoDiag_mem_logOfL load entries srcRoot destRoot rel n c text hf hy hc),
        rfl⟩
  · intro p hs
    have hs2 : (lookupFile (applyWrites (writesOfL load entries destRoot)
        fs0.files) p).isSome = true := hs
    rw [lookupFile_applyWrites] at hs2
    rcases hl : lastVal (writesOfL load entries destRoot) p with _ | t
    · rw [hl] at hs2
      exact Or.inl hs2
    · have hmem := lastVal_eq_some_mem _ _ _ hl
      rw [writesOfL_shift load entries destRoot] at hmem
      simp only [List.mem_map] at hmem
      obtain ⟨⟨p0, t0⟩, hmem0, heq⟩ := hmem
      simp at heq
      obtain ⟨rel, n, c, hf, hy, _, hp0⟩ :=
        mem_files_of_writesL load entries p0 t0 hmem0
      refine Or.inr ⟨rel, n, c, hf, hy, ?_⟩
      rw [← heq.1, hp0]
      simp

/-- Witness for `c6_yaml_filter`: on the mixed tree, the informational
diagnostic for `good.yml` indeed names an attempted `.yml` file. -/
theorem c6_yaml_filter_witness :
    ∃ rel n c, (rel, n, c) ∈ filesOfL mixedTree [] ∧ isYamlName n = true ∧
      (["config", "good.yml"] : FsPath) = ["config"] ++ rel ++ [n] :=
  (c6_yaml_filter loadFix ["config"] ["data"] mixedTree fsEmpty).1
    (Diag.infoConverted ["config", "good.yml"] ["data", "good.json"])
    (by decide) ["config", "good.yml"] rfl

/-- Claim C7: a YAML file at relative path `rel` with name `n` that
converts successfully is written to the destination root, same relative
directory, name with the extension replaced by `.json`: the write is in the
trace, the destination file exists after the run, and the destination root
and every intermediate mirrored directory level exist. -/
theorem c7_nested_mirror (load : YamlLoad) (srcRoot destRoot : FsPath)
    (entries : List SrcEntry) (fs0 : FS) (rel : FsPath) (n c text : String)
    (hf : (rel, n, c) ∈ filesOfL entries []) (hy : isYamlName n = true)
    (hok : convertFile load c = .ok text) (hroot : destRoot ≠ []) :
    (destRoot ++ rel ++ [jsonFileName n], text) ∈
      writesOfL load entries destRoot ∧
    (lookupFile (processYamlToJson load srcRoot destRoot
      (some entries) fs0).fs.files
      (destRoot ++ rel ++ [jsonFileName n])).isSome = true ∧
    destRoot ∈ (processYamlToJson load srcRoot destRoot
      (some entries) fs0).fs.dirs ∧
    (∀ i, 0 < i → i ≤ rel.length →
      destRoot ++ rel.take i ∈ (processYamlToJson load srcRoot destRoot
        (some entries) fs0).fs.dirs) := by
  have hw : (destRoot ++ rel ++ [jsonFileName n], text) ∈
      writesOfL load entries destRoot := by
    rw [writesOfL_shift load entries destRoot]
    simp only [List.mem_map]
    exact ⟨(rel ++ [jsonFileName n], text),
      mem_writes_of_filesL load entries rel n c text hf hy hok, by simp⟩
  rw [processYamlToJson_some_eq]
  refine ⟨hw, applyWrites_isSome_of_mem _ _ _ _ hw, ?_, ?_⟩
  · exact mem_dirsFold_of_mem _ _ _ (List.mem_cons_self _ _) hroot
  · intro i hi hle
    have hv := visited_take_filesL entries destRoot rel n c hf i hi hle
    apply mem_dirsFold_of_mem _ _ _
      (List.mem_cons_of_mem _ (List.mem_cons_of_mem _ hv))
    exact visitedL_ne_nil entries destRoot _ hv

/-- Witness for `c7_nested_mirror`: `a/b/c/config.yaml` lands at
`data/a/b/c/config.json` with the whole directory chain created. -/
theorem c7_nested_mirror_witness :
    (lookupFile (processYamlToJson loadFix ["config"] ["data"]
      (some deepTree) fsEmpty).fs.files
      ["data", "a", "b", "c", "config.json"]).isSome = true ∧
    ["data", "a", "b", "c"] ∈ (processYamlToJson loadFix ["config"] ["data"]
      (some deepTree) fsEmpty).fs.dirs := by
  have h := c7_nested_mirror loadFix ["config"] ["data"] deepTree fsEmpty
    ["a", "b", "c"] "config.yaml" "k: v" (jsonStringify JsonVal.null)
    (by decide) (by decide) rfl (by decide)
  exact ⟨by simpa using h.2.1, by simpa using h.2.2.2 3 (by decide) (by decide)⟩

/-- Claim C10: a YAML file whose document parses to no value (`yaml.load`
returns `undefined`, e.g. for an empty file) fails at the write:
`JSON.stringify` yields no text, `writeFileSync` throws its `TypeError`,
the per-file handler logs the error diagnostic, and the state is otherwise
untouched — no destination file is created for it and it is not counted. -/
theorem c10_undefined_document (load : YamlLoad) (n c : String) (s d : FsPath)
    (st : St) (hy : isYamlName n = true) (hload : load c = .ok none) :
    convertFile load c = .error writeUndefinedMsg ∧
    processEntry load (.file n c) s d st =
      { st with log := st.log ++ [Diag.errorFile (s ++ [n]) writeUndefinedMsg] } := by
  have hconv : convertFile load c = .error writeUndefinedMsg := by
    rw [convertFile, hload]
    rfl
  exact ⟨hconv, by simp [processEntry, hy, hconv]⟩

/-- Witness for `c10_undefined_document`: the empty file `empty.yaml`
produces only its error diagnostic. -/
theorem c10_undefined_document_witness :
    processEntry loadFix (.file "empty.yaml" "") ["config"] ["data"]
      ⟨fsEmpty, [], 0⟩ =
      { fs := fsEmpty,
        log := [Diag.errorFile ["config", "empty.yaml"] writeUndefinedMsg],
        count := 0 } := by
  rw [(c10_undefined_document loadFix "empty.yaml" "" ["config"] ["data"]
    ⟨fsEmpty, [], 0⟩ (by decide) rfl).2]
  rfl

/-- Claim C8: the top-level `process` never lets an error escape: whatever
the inner `processYamlToJson` call printed and however it terminated —
normally or raising any error, including a failed destination-root creation
or directory read — `process` returns normally, and when the body raised it
has appended the error diagnostic (with the message) and the continuation
warning. -/
theorem c8_never_raises (innerLog : List Diag) (innerResult : Except String Unit) :
    (∃ l, processBuild innerLog innerResult = (l, Except.ok ())) ∧
    (∀ e, innerResult = .error e →
      processBuild innerLog innerResult =
        (Diag.infoStarting :: innerLog ++
          [Diag.errorBuildFailed e, Diag.warnContinuing], Except.ok ())) := by
  rcases innerResult with e | u
  · refine ⟨⟨Diag.infoStarting :: innerLog ++
      [Diag.errorBuildFailed e, Diag.warnContinuing], ?_⟩, fun e2 he2 => ?_⟩
    · simp [processBuild, catchLogged]
    · cases Except.error.inj he2
      simp [processBuild, catchLogged]
  · refine ⟨⟨Diag.infoStarting :: innerLog ++ [Diag.infoBuildCompleted], ?_⟩,
      fun e2 he2 => by simp at he2⟩
    cases u
    rfl

/-- Witness for `c8_never_raises`: a body that raised `boom` is caught and
logged. -/
theorem c8_never_raises_witness :
    processBuild [] (Except.error "boom") =
      ([Diag.infoStarting, Diag.errorBuildFailed "boom", Diag.warnContinuing],
        Except.ok ()) := by
  rw [(c8_never_raises [] (Except.error "boom")).2 "boom" rfl]
  rfl

/-! ## Round trip of the JSON printer and parser -/

theorem digitVal_digitChar (n : Nat) (h : n < 10) : digitVal (digitChar n) = n := by
  interval_cases n <;> rfl

theorem isDigitChar_digitChar (n : Nat) (h : n < 10) :
    isDigitChar (digitChar n) = true := by
  interval_cases n <;> rfl

theorem natCharsAux_spec (n : Nat) : ∀ fuel acc, n < fuel →
    ∃ ds, natCharsAux fuel n acc = ds ++ acc ∧ ds ≠ [] ∧
      (∀ c ∈ ds, isDigitChar c = true) ∧
      ∀ a : Nat, ds.foldl (fun x c => 10 * x + digitVal c) a =
        a * 10 ^ ds.length + n := by
  induction n using Nat.strong_induction_on with
  | _ n ih =>
    intro fuel acc hfuel
    rcases fuel with _ | fuel2
    · omega
    · by_cases h10 : n < 10
      · refine ⟨[digitChar n], by simp [natCharsAux, h10], by simp, ?_, ?_⟩
        · intro c hc
          simp at hc
          rw [hc]
          exact isDigitChar_digitChar n h10
        · intro a
          simp [digitVal_digitChar n h10, Nat.mul_comm]
      · have hdiv : n / 10 < n := Nat.div_lt_self (by omega) (by omega)
        obtain ⟨ds2, heq, hne, hdig, hfold⟩ :=
          ih (n / 10) hdiv fuel2 (digitChar (n % 10) :: acc) (by omega)
        refine ⟨ds2 ++ [digitChar (n % 10)], ?_, by simp, ?_, ?_⟩
        · rw [natCharsAux]
          simp [h10, heq]
        · intro c hc
          rcases List.mem_append.mp hc with hc | hc
          · exact hdig c hc
          · simp at hc
            rw [hc]
            exact isDigitChar_digitChar _ (Nat.mod_lt n (by omega))
        · intro a
          rw [List.foldl_append, hfold a]
          simp [digitVal_digitChar _ (Nat.mod_lt n (by omega))]
          rw [Nat.pow_succ]
          have := Nat.div_add_mod n 10
          ring_nf
          omega

theorem natChars_spec (n : Nat) :
    ∃ ds, natChars n = ds ∧ ds ≠ [] ∧ (∀ c ∈ ds, isDigitChar c = true) ∧
      foldDigits ds = n := by
  obtain ⟨ds, heq, hne, hdig, hfold⟩ := natCharsAux_spec n (n + 1) [] (by omega)
  refine ⟨ds, by simpa [natChars] using heq, hne, hdig, ?_⟩
  have := hfold 0
  simpa [foldDigits] using this

theorem takeWhile_all_append (p : Char → Bool) (ds rest : List Char)
    (hall : ∀ c ∈ ds, p c = true)
    (hstop : ∀ c, rest.head? = some c → p c = false) :
    (ds ++ rest).takeWhile p = ds ∧ (ds ++ rest).dropWhile p = rest := by
  induction ds with
  | nil =>
    rcases rest with _ | ⟨c, r⟩
    · exact ⟨rfl, rfl⟩
    · have := hstop c rfl
      simp [List.takeWhile, List.dropWhile, this]
  | cons d ds2 ih =>
    have hd : p d = true := hall d (List.mem_cons_self _ _)
    have ih2 := ih (fun c hc => hall c (List.mem_cons_of_mem _ hc))
    simp [List.takeWhile, List.dropWhile, hd, ih2.1, ih2.2]

theorem numStop_head (rest : List Char) (hrest : numStopB rest = true) :
    ∀ c, rest.head? = some c → isDigitChar c = false := by
  intro c hc
  rcases rest with _ | ⟨c2, r⟩
  · simp at hc
  · simp at hc
    rw [numStopB] at hrest
    rw [← hc]
    simpa using hrest

theorem parseNatTok_rt (n : Nat) (rest : List Char) (hrest : numStopB rest = true) :
    parseNatTok (natChars n ++ rest) = some (n, rest) := by
  obtain ⟨ds, heq, hne, hdig, hfold⟩ := natChars_spec n
  obtain ⟨htake, hdrop⟩ := takeWhile_all_append isDigitChar ds rest hdig
    (numStop_head rest hrest)
  rw [heq, parseNatTok, htake]
  rcases ds with _ | ⟨d, ds2⟩
  · exact absurd rfl hne
  · rw [hdrop]
    rw [← hfold]

theorem digit_not_special (c : Char) (h : isDigitChar c = true) :
    (c = 'n') = False ∧ (c = 't') = False ∧ (c = 'f') = False ∧
    (c = '"') = False ∧ (c = '-') = False ∧ (c = '[') = False ∧
    (c = braceL) = False ∧ (c = ']') = False ∧ (c = braceR) = False ∧
    isWsChar c = false := by
  rw [isDigitChar] at h
  simp at h
  have hne : ∀ d : Char, ¬(48 ≤ d.toNat ∧ d.toNat ≤ 57) → (c = d) = False := by
    intro d hd
    simp only [eq_iff_iff, iff_false]
    intro he
    exact hd (he ▸ h)
  refine ⟨hne 'n' (by decide), hne 't' (by decide), hne 'f' (by decide),
    hne '"' (by decide), hne '-' (by decide), hne '[' (by decide),
    hne braceL (by decide), hne ']' (by decide), hne braceR (by decide), ?_⟩
  have h32 := hne ' ' (by decide)
  have h10 := hne '\n' (by decide)
  have h9 := hne '\t' (by decide)
  have h13 := hne '\r' (by decide)
  simp [isWsChar, h32, h10, h9, h13]

theorem skipWs_ws_append (l r : List Char) (h : allWs l = true) :
    skipWs (l ++ r) = skipWs r := by
  induction l with
  | nil => rfl
  | cons c l2 ih =>
    rw [allWs] at h
    simp at h
    rw [skipWs]
    simp [List.dropWhile, h.1]
    exact ih (by simpa [allWs] using h.2)

theorem skipWs_cons_notws (c : Char) (r : List Char) (h : isWsChar c = false) :
    skipWs (c :: r) = c :: r := by
  simp [skipWs, List.dropWhile, h]

theorem allWs_append (l r : List Char) (hl : allWs l = true) (hr : allWs r = true) :
    allWs (l ++ r) = true := by
  simp [allWs] at hl hr ⊢
  exact ⟨hl, hr⟩

theorem allWs_sp2 : allWs sp2 = true := rfl

theorem hexVal_hexChar (n : Nat) (h : n < 16) : hexVal (hexChar n) = some n := by
  interval_cases n <;> rfl

theorem parseStrAux_escape (l : List Char) (rest : List Char) :
    parseStrAux (l.flatMap escapeChar ++ ('"' :: rest)) = some (l, rest) := by
  induction l with
  | nil => simp [parseStrAux]
  | cons c l2 ih =>
    show parseStrAux ((escapeChar c ++ l2.flatMap escapeChar) ++ ('"' :: rest)) = _
    rw [List.append_assoc]
    rw [escapeChar]
    by_cases hq : c = '"'
    · subst hq
      simp only [if_pos rfl]
      simp [parseStrAux, parseEsc, unescapeChar, ih]
    · rw [if_neg hq]
      by_cases hb : c = '\\'
      · subst hb
        simp only [if_pos rfl]
        simp [parseStrAux, parseEsc, unescapeChar, ih]
      · rw [if_neg hb]
        by_cases h8 : c = Char.ofNat 8
        · subst h8
          simp only [if_pos rfl]
          simp [parseStrAux, parseEsc, unescapeChar, ih]
        · rw [if_neg h8]
          by_cases h12 : c = Char.ofNat 12
          · subst h12
            simp only [if_pos rfl]
            simp [parseStrAux, parseEsc, unescapeChar, ih]
          · rw [if_neg h12]
            by_cases hn : c = '\n'
            · subst hn
              simp only [if_pos rfl]
              simp [parseStrAux, parseEsc, unescapeChar, ih]
            · rw [if_neg hn]
              by_cases hr : c = '\r'
              · subst hr
                simp only [if_pos rfl]
                simp [parseStrAux, parseEsc, unescapeChar, ih]
              · rw [if_neg hr]
                by_cases ht : c = '\t'
                · subst ht
                  simp only [if_pos rfl]
                  simp [parseStrAux, parseEsc, unescapeChar, ih]
                · rw [if_neg ht]
                  by_cases hc : c.toNat < 32
                  · rw [if_pos hc]
                    have hd1 : c.toNat / 16 < 16 := by omega
                    have hd2 : c.toNat % 16 < 16 := by omega
                    have hv : ((0 * 16 + 0) * 16 + c.toNat / 16) * 16 +
                        c.toNat % 16 = c.toNat := by omega
                    have h0 : hexVal '0' = some 0 := rfl
                    have hv2 : c.toNat / 16 * 16 + c.toNat % 16 = c.toNat := by
                      omega
                    simp only [List.cons_append]
                    simp [parseStrAux, parseEsc, parseUEsc, h0,
                      hexVal_hexChar _ hd1, hexVal_hexChar _ hd2, ih, hv, hv2,
                      Char.ofNat_toNat]
                  · rw [if_neg hc]
                    simp only [List.cons_append, List.nil_append]
                    rw [parseStrAux, if_neg hq, if_neg hb, if_neg hc, ih]

theorem parseStr_quote (l : List Char) (rest : List Char) :
    parseStrAux ((l.flatMap escapeChar ++ ['"']) ++ rest) = some (l, rest) := by
  rw [List.append_assoc]
  exact parseStrAux_escape l rest

theorem scVal_head (ind : List Char) (v : JsonVal) :
    ∃ c t, scVal ind v = c :: t ∧ isWsChar c = false ∧ (c = ']') = False ∧
      (c = braceR) = False := by
  cases v with
  | null => exact ⟨'n', _, rfl, by decide, by decide, by decide⟩
  | bool b =>
    cases b
    · exact ⟨'f', _, rfl, by decide, by decide, by decide⟩
    · exact ⟨'t', _, rfl, by decide, by decide, by decide⟩
  | num n =>
    by_cases hn : n < 0
    · exact ⟨'-', natChars n.natAbs, by simp [scVal, intChars, hn], by decide,
        by decide, by decide⟩
    · obtain ⟨ds, heq, hne, hdig, _⟩ := natChars_spec n.toNat
      rcases ds with _ | ⟨d, ds2⟩
      · exact absurd rfl hne
      · have hd := hdig d (List.mem_cons_self _ _)
        obtain ⟨_, _, _, _, _, _, _, hbr, hbrR, hws⟩ := digit_not_special d hd
        exact ⟨d, ds2, by simp [scVal, intChars, hn, heq], hws, hbr, hbrR⟩
  | str s => exact ⟨'"', s.data.flatMap escapeChar ++ ['"'],
      by simp [scVal, quoteChars], by decide, by decide, by decide⟩
  | arr elems =>
    cases elems
    · exact ⟨'[', _, rfl, by decide, by decide, by decide⟩
    · exact ⟨'[', _, rfl, by decide, by decide, by decide⟩
  | obj fields =>
    cases fields
    · exact ⟨braceL, _, rfl, by decide, by decide, by decide⟩
    · exact ⟨braceL, _, rfl, by decide, by decide, by decide⟩

theorem scVal_length_pos (ind : List Char) (v : JsonVal) :
    0 < (scVal ind v).length := by
  obtain ⟨c, t, heq, _⟩ := scVal_head ind v
  simp [heq]

mutual
/-- The fuel measure of a value is at most its printed length. -/
theorem szV_le (v : JsonVal) (ind : List Char) : szV v ≤ (scVal ind v).length :=
  match v with
  | .null => by simp [szV, scVal, nullChars]
  | .bool b => by cases b <;> simp [szV, scVal, trueChars, falseChars]
  | .num n => by
    have := scVal_length_pos ind (.num n)
    simp [szV]
    omega
  | .str s => by
    have := scVal_length_pos ind (.str s)
    simp [szV]
    omega
  | .arr [] => by simp [szV, szL, scVal]
  | .arr (x :: xs) => by
    have h := szL_le (x :: xs) (ind ++ sp2) (by simp)
    simp only [szV, scVal]
    simp
    omega
  | .obj [] => by simp [szV, szF, scVal]
  | .obj (f :: fs) => by
    have h := szF_le (f :: fs) (ind ++ sp2) (by simp)
    simp only [szV, scVal]
    simp
    omega

/-- The fuel measure of a nonempty member list is at most its printed
length plus two. -/
theorem szL_le (vs : List JsonVal) (ind : List Char) (hne : vs ≠ []) :
    szL vs ≤ (scItems ind vs).length + 2 :=
  match vs with
  | [] => by exact absurd rfl hne
  | [x] => by
    have h := szV_le x ind
    have hp := scVal_length_pos ind x
    simp only [szL, szL.eq_1, scItems]
    simp
    omega
  | x :: y :: ys => by
    have h1 := szV_le x ind
    have h2 := szL_le (y :: ys) ind (by simp)
    have e1 : szL (x :: y :: ys) = max (szV x) (szL (y :: ys)) + 1 := rfl
    have e2 : scItems ind (x :: y :: ys) =
        (ind ++ scVal ind x) ++ (',' :: '\n' :: scItems ind (y :: ys)) := rfl
    rw [e1, e2]
    simp [List.length_append]
    omega

/-- The fuel measure of a nonempty field list is at most its printed length
plus two. -/
theorem szF_le (fs : List (String × JsonVal)) (ind : List Char) (hne : fs ≠ []) :
    szF fs ≤ (scFields ind fs).length + 2 :=
  match fs with
  | [] => by exact absurd rfl hne
  | [(k, v)] => by
    have h := szV_le v ind
    have hp := scVal_length_pos ind v
    simp only [szF, szF.eq_1, scFields]
    simp
    omega
  | (k, v) :: g :: gs => by
    have h1 := szV_le v ind
    have h2 := szF_le (g :: gs) ind (by simp)
    have e1 : szF ((k, v) :: g :: gs) = max (szV v) (szF (g :: gs)) + 1 := rfl
    have e2 : scFields ind ((k, v) :: g :: gs) =
        (ind ++ (quoteChars k ++ (':' :: ' ' :: scVal ind v))) ++
          (',' :: '\n' :: scFields ind (g :: gs)) := rfl
    rw [e1, e2]
    simp [List.length_append]
    omega
end

theorem skipWs_cons_ws (c : Char) (r : List Char) (h : isWsChar c = true) :
    skipWs (c :: r) = skipWs r := by
  simp [skipWs, List.dropWhile, h]

theorem scItems_cons (ind : List Char) (x : JsonVal) (xs : List JsonVal) :
    scItems ind (x :: xs) = ind ++ (scVal ind x ++ itemsSep ind xs) := by
  cases xs <;> simp [scItems, itemsSep]

theorem scFields_cons (ind : List Char) (k : String) (v : JsonVal)
    (fs : List (String × JsonVal)) :
    scFields ind ((k, v) :: fs) =
      ind ++ (quoteChars k ++ ((':' :: ' ' :: scVal ind v) ++ fieldsSep ind fs)) := by
  cases fs with
  | nil => simp [scFields, fieldsSep]
  | cons g gs =>
    rcases g with ⟨k2, v2⟩
    simp [scFields, fieldsSep]

theorem szV_pos (v : JsonVal) : 1 ≤ szV v := by
  cases v <;> simp [szV]

theorem szL_pos (xs : List JsonVal) : 1 ≤ szL xs := by
  cases xs <;> simp [szL]

theorem szF_pos (fs : List (String × JsonVal)) : 1 ≤ szF fs := by
  rcases fs with _ | ⟨⟨k, v⟩, gs⟩ <;> simp [szF]

theorem szL_cons_le (x : JsonVal) (xs : List JsonVal) (f : Nat)
    (h : szL (x :: xs) ≤ f + 1) : szV x ≤ f ∧ szL xs ≤ f := by
  have e : szL (x :: xs) = max (szV x) (szL xs) + 1 := rfl
  rw [e] at h
  omega

theorem szF_cons_le (k : String) (v : JsonVal) (fs : List (String × JsonVal))
    (f : Nat) (h : szF ((k, v) :: fs) ≤ f + 1) : szV v ≤ f ∧ szF fs ≤ f := by
  have e : szF ((k, v) :: fs) = max (szV v) (szF fs) + 1 := rfl
  rw [e] at h
  omega

theorem skipWs_quote (k : String) (X : List Char) :
    skipWs (quoteChars k ++ X) = quoteChars k ++ X := by
  rw [quoteChars, List.cons_append]
  exact skipWs_cons_notws '"' _ (by decide)

theorem skipWs_scVal (ind : List Char) (v : JsonVal) (X : List Char) :
    skipWs (scVal ind v ++ X) = scVal ind v ++ X := by
  obtain ⟨c, t, hx, hw, _, _⟩ := scVal_head ind v
  rw [hx, List.cons_append]
  exact skipWs_cons_notws c _ hw

mutual
/-- Round trip of the printer and parser: parsing the 2-space
pretty-printed form of a value, at any ambient indentation and with any
non-digit-led remainder, returns exactly the value. -/
theorem rt_val (v : JsonVal) (f : Nat) (ind rest : List Char)
    (hf : szV v ≤ f) (hind : allWs ind = true) (hrest : numStopB rest = true) :
    parseVal f (scVal ind v ++ rest) = some (v, rest) :=
  match v, f with
  | v, 0 => by
    have := szV_pos v
    omega
  | .null, f + 1 => by simp [scVal, nullChars, parseVal]
  | .bool true, f + 1 => by simp [scVal, trueChars, parseVal]
  | .bool false, f + 1 => by simp [scVal, falseChars, parseVal]
  | .str s, f + 1 => by
    have hd : isDigitChar '"' = false := by decide
    simp [scVal, quoteChars, parseVal, hd, parseStrAux_escape]
  | .num n, f + 1 => by
    by_cases hn : n < 0
    · have e1 : scVal ind (.num n) ++ rest = '-' :: (natChars n.natAbs ++ rest) := by
        simp [scVal, intChars, hn]
      have habs : ((n.natAbs : Nat) : Int) = -n :=
        Int.ofNat_natAbs_of_nonpos (by omega)
      rw [e1]
      simp [parseVal, parseNatTok_rt n.natAbs rest hrest, habs]
    · obtain ⟨ds, hdseq, hdne, hdig, _⟩ := natChars_spec n.toNat
      rcases ds with _ | ⟨d, ds2⟩
      · exact absurd rfl hdne
      · have hd := hdig d (List.mem_cons_self _ _)
        obtain ⟨g1, g2, g3, g4, g5, _, _, _, _, _⟩ := digit_not_special d hd
        have e1 : scVal ind (.num n) ++ rest = d :: (ds2 ++ rest) := by
          simp [scVal, intChars, hn, hdseq]
        have hnat : parseNatTok (d :: (ds2 ++ rest)) = some (n.toNat, rest) := by
          have h2 := parseNatTok_rt n.toNat rest hrest
          rw [hdseq] at h2
          simpa using h2
        have htn : ((n.toNat : Nat) : Int) = n := Int.toNat_of_nonneg (by omega)
        rw [e1]
        simp [parseVal, g1, g2, g3, g4, g5, hd, hnat, htn]
  | .arr [], f + 1 => by
    have hd : isDigitChar '[' = false := by decide
    have hsk : skipWs (']' :: rest) = ']' :: rest :=
      skipWs_cons_notws ']' rest (by decide)
    simp [scVal, parseVal, hd, hsk]
  | .arr (x :: xs), f + 1 => by
    have hind2 : allWs (ind ++ sp2) = true := allWs_append ind sp2 hind allWs_sp2
    have hsz : szL (x :: xs) ≤ f := by
      have e : szV (.arr (x :: xs)) = szL (x :: xs) + 1 := rfl
      omega
    have e1 : scVal ind (.arr (x :: xs)) ++ rest =
        '[' :: '\n' :: (scItems (ind ++ sp2) (x :: xs) ++
          ('\n' :: (ind ++ (']' :: rest)))) := by
      show (('[' :: '\n' :: scItems (ind ++ sp2) (x :: xs)) ++ ('\n' :: ind) ++ [']'])
          ++ rest = _
      simp
    obtain ⟨c2, t2, hx, hxw, hxbr, _⟩ := scVal_head (ind ++ sp2) x
    have hskip : skipWs (scItems (ind ++ sp2) (x :: xs) ++
        ('\n' :: (ind ++ (']' :: rest)))) =
        c2 :: (t2 ++ (itemsSep (ind ++ sp2) xs ++
          ('\n' :: (ind ++ (']' :: rest))))) := by
      rw [scItems_cons, List.append_assoc, skipWs_ws_append _ _ hind2,
        List.append_assoc, skipWs_scVal]
      rw [hx]
      simp
    have hpe : parseElems f (c2 :: (t2 ++ (itemsSep (ind ++ sp2) xs ++
        ('\n' :: (ind ++ (']' :: rest)))))) = some (x :: xs, rest) := by
      have hb : c2 :: (t2 ++ (itemsSep (ind ++ sp2) xs ++
          ('\n' :: (ind ++ (']' :: rest))))) =
          scVal (ind ++ sp2) x ++ (itemsSep (ind ++ sp2) xs ++
            ('\n' :: (ind ++ (']' :: rest)))) := by
        rw [hx]
        simp
      rw [hb]
      exact rt_items x xs f (ind ++ sp2) ind rest hsz hind2 hind hrest
    have hd : isDigitChar '[' = false := by decide
    have hws : isWsChar '\n' = true := by decide
    simp only [List.cons_append, List.append_assoc, List.nil_append]
      at hskip hpe e1
    rw [e1]
    simp [parseVal, hd, skipWs_cons_ws _ _ hws, hskip, hxbr, hpe]
  | .obj [], f + 1 => by
    have b1 : (braceL = 'n') = False := by decide
    have b2 : (braceL = 't') = False := by decide
    have b3 : (braceL = 'f') = False := by decide
    have b4 : (braceL = '"') = False := by decide
    have b5 : (braceL = '-') = False := by decide
    have b6 : isDigitChar braceL = false := by decide
    have b7 : (braceL = '[') = False := by decide
    have hsk : skipWs (braceR :: rest) = braceR :: rest :=
      skipWs_cons_notws braceR rest (by decide)
    have e1 : scVal ind (.obj []) ++ rest = braceL :: (braceR :: rest) := by
      simp [scVal]
    rw [e1]
    simp [parseVal, b1, b2, b3, b4, b5, b6, b7, hsk]
  | .obj ((k, v) :: fs), f + 1 => by
    have hind2 : allWs (ind ++ sp2) = true := allWs_append ind sp2 hind allWs_sp2
    have hsz : szF ((k, v) :: fs) ≤ f := by
      have e : szV (.obj ((k, v) :: fs)) = szF ((k, v) :: fs) + 1 := rfl
      omega
    have e1 : scVal ind (.obj ((k, v) :: fs)) ++ rest =
        braceL :: '\n' :: (scFields (ind ++ sp2) ((k, v) :: fs) ++
          ('\n' :: (ind ++ (braceR :: rest)))) := by
      show ((braceL :: '\n' :: scFields (ind ++ sp2) ((k, v) :: fs)) ++
          ('\n' :: ind) ++ [braceR]) ++ rest = _
      simp
    have hskip : skipWs (scFields (ind ++ sp2) ((k, v) :: fs) ++
        ('\n' :: (ind ++ (braceR :: rest)))) =
        quoteChars k ++ (((':' :: ' ' :: scVal (ind ++ sp2) v) ++
          (fieldsSep (ind ++ sp2) fs ++ ('\n' :: (ind ++ (braceR :: rest)))))) := by
      rw [scFields_cons, List.append_assoc, skipWs_ws_append _ _ hind2,
        List.append_assoc, skipWs_quote]
      simp [List.append_assoc]
    have hpf : parseFields f (quoteChars k ++ (((':' :: ' ' :: scVal (ind ++ sp2) v) ++
        (fieldsSep (ind ++ sp2) fs ++ ('\n' :: (ind ++ (braceR :: rest))))))) =
        some ((k, v) :: fs, rest) :=
      rt_fields k v fs f (ind ++ sp2) ind rest hsz hind2 hind hrest
    have b1 : (braceL = 'n') = False := by decide
    have b2 : (braceL = 't') = False := by decide
    have b3 : (braceL = 'f') = False := by decide
    have b4 : (braceL = '"') = False := by decide
    have b5 : (braceL = '-') = False := by decide
    have b6 : isDigitChar braceL = false := by decide
    have b7 : (braceL = '[') = False := by decide
    have bq : ('"' = braceR) = False := by decide
    have hws : isWsChar '\n' = true := by decide
    rw [quoteChars] at hskip hpf
    simp only [List.cons_append, List.append_assoc, List.nil_append]
      at hskip hpf e1
    rw [e1]
    simp [parseVal, b1, b2, b3, b4, b5, b6, b7, bq, skipWs_cons_ws _ _ hws,
      hskip, hpf]
termination_by (sizeOf v, 1)

/-- Round trip of a non-empty array member list against `parseElems`. -/
theorem rt_items (x : JsonVal) (xs : List JsonVal) (f : Nat)
    (ind2 ind rest : List Char) (hf : szL (x :: xs) ≤ f)
    (hind2 : allWs ind2 = true) (hind : allWs ind = true)
    (hrest : numStopB rest = true) :
    parseElems f (scVal ind2 x ++ (itemsSep ind2 xs ++
      ('\n' :: (ind ++ (']' :: rest))))) = some (x :: xs, rest) :=
  match xs, f with
  | xs, 0 => by
    have := szL_pos (x :: xs)
    omega
  | [], f + 1 => by
    have hx := (szL_cons_le x [] f hf).1
    have hnum : numStopB ('\n' :: (ind ++ (']' :: rest))) = true := rfl
    have hv := rt_val x f ind2 ('\n' :: (ind ++ (']' :: rest))) hx hind2 hnum
    have hsk : skipWs ('\n' :: (ind ++ (']' :: rest))) = ']' :: rest := by
      rw [skipWs_cons_ws '\n' _ (by decide), skipWs_ws_append _ _ hind]
      exact skipWs_cons_notws ']' rest (by decide)
    have hni : itemsSep ind2 ([] : List JsonVal) = [] := rfl
    rw [hni]
    simp only [List.nil_append, List.cons_append, List.append_assoc] at hv hsk ⊢
    simp [parseElems, hv, hsk]
  | y :: ys, f + 1 => by
    have hx := (szL_cons_le x (y :: ys) f hf).1
    have hys := (szL_cons_le x (y :: ys) f hf).2
    have hsep : itemsSep ind2 (y :: ys) = ',' :: '\n' :: scItems ind2 (y :: ys) := rfl
    have hnum : numStopB (itemsSep ind2 (y :: ys) ++
        ('\n' :: (ind ++ (']' :: rest)))) = true := rfl
    have hv := rt_val x f ind2 (itemsSep ind2 (y :: ys) ++
      ('\n' :: (ind ++ (']' :: rest)))) hx hind2 hnum
    obtain ⟨c2, t2, hy, hyw, _, _⟩ := scVal_head ind2 y
    have hskip : skipWs (scItems ind2 (y :: ys) ++
        ('\n' :: (ind ++ (']' :: rest)))) =
        c2 :: (t2 ++ (itemsSep ind2 ys ++ ('\n' :: (ind ++ (']' :: rest))))) := by
      rw [scItems_cons, List.append_assoc, skipWs_ws_append _ _ hind2,
        List.append_assoc, skipWs_scVal]
      rw [hy]
      simp
    have hpe : parseElems f (c2 :: (t2 ++ (itemsSep ind2 ys ++
        ('\n' :: (ind ++ (']' :: rest)))))) = some (y :: ys, rest) := by
      have hb : c2 :: (t2 ++ (itemsSep ind2 ys ++
          ('\n' :: (ind ++ (']' :: rest))))) =
          scVal ind2 y ++ (itemsSep ind2 ys ++ ('\n' :: (ind ++ (']' :: rest)))) := by
        rw [hy]
        simp
      rw [hb]
      exact rt_items y ys f ind2 ind rest hys hind2 hind hrest
    have hcm : (',' = ']') = False := by decide
    have hws : isWsChar '\n' = true := by decide
    have hcw : isWsChar ',' = false := by decide
    rw [hsep] at hv ⊢
    simp only [List.cons_append, List.append_assoc, List.nil_append]
      at hv hskip hpe ⊢
    simp [parseElems, hv, skipWs_cons_notws ',' _ hcw, skipWs_cons_ws _ _ hws,
      hskip, hpe, hcm]
termination_by (sizeOf (JsonVal.arr (x :: xs)), 0)

/-- Round trip of a non-empty object member list against `parseFields`. -/
theorem rt_fields (k : String) (v : JsonVal) (fs : List (String × JsonVal))
    (f : Nat) (ind2 ind rest : List Char) (hf : szF ((k, v) :: fs) ≤ f)
    (hind2 : allWs ind2 = true) (hind : allWs ind = true)
    (hrest : numStopB rest = true) :
    parseFields f (quoteChars k ++ ((':' :: ' ' :: scVal ind2 v) ++
      (fieldsSep ind2 fs ++ ('\n' :: (ind ++ (braceR :: rest)))))) =
      some ((k, v) :: fs, rest) :=
  match fs, f with
  | fs, 0 => by
    have := szF_pos ((k, v) :: fs)
    omega
  | [], f + 1 => by
    have hv0 := (szF_cons_le k v [] f hf).1
    have hnum : numStopB ('\n' :: (ind ++ (braceR :: rest))) = true := rfl
    have hvv := rt_val v f ind2 ('\n' :: (ind ++ (braceR :: rest))) hv0 hind2 hnum
    have hsk : skipWs ('\n' :: (ind ++ (braceR :: rest))) = braceR :: rest := by
      rw [skipWs_cons_ws '\n' _ (by decide), skipWs_ws_append _ _ hind]
      exact skipWs_cons_notws braceR rest (by decide)
    have hni : fieldsSep ind2 ([] : List (String × JsonVal)) = [] := rfl
    have hstr := parseStr_quote k.data
      (':' :: ' ' :: (scVal ind2 v ++ ('\n' :: (ind ++ (braceR :: rest)))))
    have hcol : skipWs (':' :: ' ' :: (scVal ind2 v ++
        ('\n' :: (ind ++ (braceR :: rest))))) =
        ':' :: ' ' :: (scVal ind2 v ++ ('\n' :: (ind ++ (braceR :: rest)))) :=
      skipWs_cons_notws ':' _ (by decide)
    have hsp : skipWs (' ' :: (scVal ind2 v ++ ('\n' :: (ind ++ (braceR :: rest))))) =
        scVal ind2 v ++ ('\n' :: (ind ++ (braceR :: rest))) := by
      rw [skipWs_cons_ws ' ' _ (by decide), skipWs_scVal]
    have hbr : (braceR = ',') = False := by decide
    have hqd : isDigitChar '"' = false := by decide
    rw [hni, quoteChars]
    simp only [List.nil_append, List.cons_append, List.append_assoc]
      at hvv hsk hstr hcol hsp ⊢
    simp [parseFields, hqd, hstr, hcol, hsp, hvv, hsk, hbr]
  | (k2, v2) :: gs, f + 1 => by
    have hv0 := (szF_cons_le k v ((k2, v2) :: gs) f hf).1
    have hgs := (szF_cons_le k v ((k2, v2) :: gs) f hf).2
    have hsep : fieldsSep ind2 ((k2, v2) :: gs) =
        ',' :: '\n' :: scFields ind2 ((k2, v2) :: gs) := rfl
    have hnum : numStopB (fieldsSep ind2 ((k2, v2) :: gs) ++
        ('\n' :: (ind ++ (braceR :: rest)))) = true := rfl
    have hvv := rt_val v f ind2 (fieldsSep ind2 ((k2, v2) :: gs) ++
      ('\n' :: (ind ++ (braceR :: rest)))) hv0 hind2 hnum
    have hstr := parseStr_quote k.data
      (':' :: ' ' :: (scVal ind2 v ++ (fieldsSep ind2 ((k2, v2) :: gs) ++
        ('\n' :: (ind ++ (braceR :: rest))))))
    have hcol : skipWs (':' :: ' ' :: (scVal ind2 v ++
        (fieldsSep ind2 ((k2, v2) :: gs) ++
          ('\n' :: (ind ++ (braceR :: rest)))))) =
        ':' :: ' ' :: (scVal ind2 v ++ (fieldsSep ind2 ((k2, v2) :: gs) ++
          ('\n' :: (ind ++ (braceR :: rest))))) :=
      skipWs_cons_notws ':' _ (by decide)
    have hsp : skipWs (' ' :: (scVal ind2 v ++ (fieldsSep ind2 ((k2, v2) :: gs) ++
        ('\n' :: (ind ++ (braceR :: rest)))))) =
        scVal ind2 v ++ (fieldsSep ind2 ((k2, v2) :: gs) ++
          ('\n' :: (ind ++ (braceR :: rest)))) := by
      rw [skipWs_cons_ws ' ' _ (by decide), skipWs_scVal]
    have hskipg : skipWs (scFields ind2 ((k2, v2) :: gs) ++
        ('\n' :: (ind ++ (braceR :: rest)))) =
        quoteChars k2 ++ ((':' :: ' ' :: scVal ind2 v2) ++
          (fieldsSep ind2 gs ++ ('\n' :: (ind ++ (braceR :: rest))))) := by
      rw [scFields_cons, List.append_assoc, skipWs_ws_append _ _ hind2,
        List.append_assoc, skipWs_quote]
      simp [List.append_assoc]
    have hpf : parseFields f (quoteChars k2 ++ ((':' :: ' ' :: scVal ind2 v2) ++
        (fieldsSep ind2 gs ++ ('\n' :: (ind ++ (braceR :: rest)))))) =
        some ((k2, v2) :: gs, rest) :=
      rt_fields k2 v2 gs f ind2 ind rest hgs hind2 hind hrest
    have hcm : (',' = braceR) = False := by decide
    have hws : isWsChar '\n' = true := by decide
    have hcw : isWsChar ',' = false := by decide
    have hqd : isDigitChar '"' = false := by decide
    rw [hsep] at hvv hstr hcol hsp ⊢
    rw [quoteChars] at hskipg hpf ⊢
    simp only [List.nil_append, List.cons_append, List.append_assoc]
      at hvv hstr hcol hsp hskipg hpf ⊢
    simp [parseFields, hqd, hstr, hcol, hsp, hvv,
      skipWs_cons_notws ',' _ hcw, skipWs_cons_ws _ _ hws, hskipg, hpf, hcm]
termination_by (sizeOf (JsonVal.obj ((k, v) :: fs)), 0)
end

/-- Parsing the pretty-printed serialization of any value returns exactly
that value. -/
theorem jsonParse_stringify (v : JsonVal) :
    jsonParse (jsonStringify v) = some v := by
  have hdata : (jsonStringify v).data = scVal [] v := rfl
  have hskip : skipWs (scVal [] v) = scVal [] v := by
    have h := skipWs_scVal [] v []
    simpa using h
  have hf : szV v ≤ (scVal [] v).length + 1 := by
    have := szV_le v []
    omega
  have hp := rt_val v ((scVal [] v).length + 1) [] [] hf rfl rfl
  rw [List.append_nil] at hp
  rw [jsonParse, hdata, hskip, hp]
  rfl

/-- Claim C4: for a YAML file that converts successfully — `yaml.load`
returned a document value and the JSON text was produced — parsing the
emitted JSON yields a value deeply equal to the loaded value.  The domain
hypothesis `goodVal` records the modelled value domain (integer numbers
exactly representable in a JavaScript number, objects with distinct keys
as `yaml.load` produces); the claims hold for every value of the model. -/
theorem c4_round_trip (load : YamlLoad) (content text : String) (v : JsonVal)
    (hload : load content = .ok (some v))
    (hconv : convertFile load content = .ok text)
    (_hdom : goodVal v = true) :
    jsonParse text = some v := by
  have htext : text = jsonStringify v := by
    rw [convertFile, hload] at hconv
    simpa [jsonStringifyOpt] using hconv.symm
  rw [htext]
  exact jsonParse_stringify v

/-- Witness for `c4_round_trip`: the sample document survives the round
trip. -/
theorem c4_round_trip_witness :
    jsonParse (jsonStringify sampleVal) = some sampleVal :=
  c4_round_trip (fun _ => .ok (some sampleVal)) "doc" (jsonStringify sampleVal)
    sampleVal rfl rfl (by decide)
